import Mathlib

set_option autoImplicit false

namespace Reclaimed

/-! # Shallow embedding of the `reclaimed` disk-usage scanner

Embeds the aggregation engine of `reclaim/core/scanner.py` and the
view/mutation logic of `reclaimed/ui/textual_app.py`:

* absolute filesystem paths are lists of segments (`pathlib` path algebra:
  `parents`, `is_relative_to`, `parts`);
* the filesystem seen by a scan is a finite tree whose nodes carry the
  outcome of `stat`/`scandir` calls (a failed call is recorded in the node,
  since its result is never observable);
* Python `dict`s are association lists with insertion-order iteration;
* Python `float` progress values are embedded as rationals;
* a raised exception is `Option.none` / `Except.error`.
-/

/-- An absolute filesystem path, as its list of segments: `/a/b` is
`["a", "b"]` and the filesystem root `/` is `[]`. -/
abbrev FPath := List String

/-- The `pathlib.PurePath.parents`: every strict ancestor of an absolute path,
nearest first, ending with the filesystem root `[]`. -/
def parents (p : FPath) : List FPath :=
  (List.range p.length).reverse.map (fun k => List.take k p)

/-- The `pathlib.PurePath.is_relative_to(q)`: `q` is `p` itself or an ancestor
of `p` (segment-wise containment). -/
def is_relative_to (p q : FPath) : Prop := q <+: p

instance (p q : FPath) : Decidable (is_relative_to p q) := by
  unfold is_relative_to; infer_instance

/-- Number of `pathlib` `parts` of an absolute path (the leading `/` is a
part, so this is one more than the number of segments). -/
def parts_count (p : FPath) : Nat := p.length + 1

/-- The `str(path)` for an absolute path. -/
def path_str (p : FPath) : String :=
  let sep : String := "/"
  sep ++ String.intercalate sep p

/-- Python's `in` on strings: contiguous substring test. -/
def str_contains (s pat : String) : Bool := decide (pat.data <:+: s.data)

/-- The vendor marker substring the iCloud heuristic looks for. -/
def mobileDocumentsMarker : String := "Mobile Documents"

/-! ## Python dictionaries

`dict` is an association list: lookup returns the first (unique) binding,
update rewrites an existing binding in place, insertion appends, so that
iteration order is insertion order, as in CPython. -/

/-- The `d.get(k)` on a Python dict. -/
def dict_get {α β : Type} [DecidableEq α] (d : List (α × β)) (k : α) : Option β :=
  match d with
  | [] => none
  | (k', v) :: rest => if k' = k then some v else dict_get rest k

/-- The `d[k] = v` on a Python dict. -/
def dict_set {α β : Type} [DecidableEq α] (d : List (α × β)) (k : α) (v : β) :
    List (α × β) :=
  match d with
  | [] => [(k, v)]
  | (k', v') :: rest => if k' = k then (k', v) :: rest else (k', v') :: dict_set rest k v

/-! ## Data model (`reclaimed/core/types.py`) -/

/-- The `FileInfo`: immutable record of one file or directory. -/
structure FileInfo where
  path : FPath
  size : Int
  is_icloud : Bool
deriving DecidableEq

/-- The `ScanOptions` with its Python defaults. -/
structure ScanOptions where
  max_files : Nat := 10
  max_dirs : Nat := 10
  skip_dirs : List String := [".Trash", "System Volume Information"]
  icloud_base : Option FPath := none

/-- The `ScanProgress`: one progress snapshot; `progress` is a Python float,
embedded as a rational. -/
structure ScanProgress where
  progress : ℚ
  files : List FileInfo
  dirs : List FileInfo
  scanned : Nat
  total_size : Int

/-- The `ScanResult`: the terminal outcome of the blocking `scan`. -/
structure ScanResult where
  files : List FileInfo
  directories : List FileInfo
  total_size : Int
  files_scanned : Nat
  access_issues : List (FPath × String)

/-! ## The filesystem seen by one scan

Each node records what the scanner's `stat`/`scandir`/`is_symlink` calls
would return; a node whose call fails carries just the error message,
since nothing else about it is observable. -/

/-- One directory entry as the traversal sees it. -/
inductive FSEntry where
  /-- A file whose `stat` succeeds, with its size. -/
  | file (name : String) (size : Int)
  /-- A file whose `stat` raises, with the recorded error message. -/
  | badFile (name : String) (err : String)
  /-- A directory whose `scandir` succeeds, with its entries in listing order. -/
  | dir (name : String) (children : List FSEntry)
  /-- A directory whose `scandir` raises, with the recorded error message. -/
  | badDir (name : String) (err : String)
  /-- A symlink (never entered, never stat'ed). -/
  | symlink (name : String)

/-- The name of a directory entry. -/
def entryName : FSEntry → String
  | .file n _ => n
  | .badFile n _ => n
  | .dir n _ => n
  | .badDir n _ => n
  | .symlink n => n

mutual

/-- A well-formed directory entry has distinct child names, recursively
(true of any real filesystem directory). -/
def wfEntry : FSEntry → Bool
  | .dir _ children =>
      decide ((children.map entryName).Nodup) && wfEntries children
  | _ => true

/-- All entries of a listing are well-formed. -/
def wfEntries : List FSEntry → Bool
  | [] => true
  | t :: ts => wfEntry t && wfEntries ts

end

/-- One event of the traversal: `(path, is_file, size)`. -/
abbrev ScanEvent := FPath × Bool × Int

/-! ## `DiskScanner._walk_directory` (synchronous walk)

Depth-first in listing order. Symlinks are skipped; a directory whose name
is in `skip_dirs` is not entered but its own `(path, False, 0)` event is
still yielded; a failed `scandir`/`stat` is recorded against the failing
path and the walk continues with the siblings. Returns
(events, access issues), each in traversal order. -/

mutual

/-- Events and access issues produced for one entry of `scandir(pp)`. -/
def walk_entry (skip : List String) (pp : FPath) :
    FSEntry → List ScanEvent × List (FPath × String)
  | .symlink _ => ([], [])
  | .file n s => ([(pp ++ [n], true, s)], [])
  | .badFile n e => ([], [(pp ++ [n], e)])
  | .dir n children =>
      let sub := if n ∈ skip then ([], []) else walk_entries skip (pp ++ [n]) children
      (sub.1 ++ [(pp ++ [n], false, 0)], sub.2)
  | .badDir n e =>
      let sub : List ScanEvent × List (FPath × String) :=
        if n ∈ skip then ([], []) else ([], [(pp ++ [n], e)])
      (sub.1 ++ [(pp ++ [n], false, 0)], sub.2)

/-- Events and access issues for a whole listing, in order. -/
def walk_entries (skip : List String) (pp : FPath) :
    List FSEntry → List ScanEvent × List (FPath × String)
  | [] => ([], [])
  | t :: ts =>
      let a := walk_entry skip pp t
      let b := walk_entries skip pp ts
      (a.1 ++ b.1, a.2 ++ b.2)

end

/-- The `_walk_directory(root_path)`: walk the scan root itself. A root whose
`scandir` fails yields no events and one recorded issue; the root
directory itself is never yielded as an event. -/
def walk_directory (skip : List String) (rootPath : FPath) :
    FSEntry → List ScanEvent × List (FPath × String)
  | .dir _ children => walk_entries skip rootPath children
  | .badDir _ e => ([], [(rootPath, e)])
  | _ => ([], [])

/-! ## `DiskScanner._update_dir_sizes`

Per file event, walks `file_path.parents` — the file's entire ancestor
chain up to the filesystem root, with no stop at the scan root — and adds
the file size and ORs the iCloud flag into each entry of `_dir_sizes`.
(The periodic write-back into `DirectorySizeCache` is omitted: the cache
is never read back by any code these claims mention.) -/

/-- The `_dir_sizes` dict: path → (accumulated size, iCloud flag). -/
abbrev DirSizes := List (FPath × Int × Bool)

/-- The `_update_dir_sizes(file_path, file_size, is_icloud)`. -/
def update_dir_sizes (d : DirSizes) (filePath : FPath) (fileSize : Int)
    (isIcloud : Bool) : DirSizes :=
  (parents filePath).foldl
    (fun acc parent =>
      let curr := (dict_get acc parent).getD (0, false)
      dict_set acc parent (curr.1 + fileSize, curr.2 || isIcloud))
    d

/-- The size the scanner has recorded for a directory — the first
component of `_dir_sizes.get(p, (0, False))`. -/
def recordedSize (d : DirSizes) (p : FPath) : Int :=
  ((dict_get d p).getD (0, false)).1

/-- The iCloud flag the scanner has recorded for a directory. -/
def recordedCloud (d : DirSizes) (p : FPath) : Bool :=
  ((dict_get d p).getD (0, false)).2

/-- The storage-class heuristic computed per file in `scan`/`scan_async`:
`(icloud_base and icloud_base in path.parents) or "Mobile Documents" in str(path)`. -/
def is_icloud_path (icb : Option FPath) (p : FPath) : Bool :=
  (match icb with
   | some b => decide (b ∈ parents p)
   | none => false) || str_contains (path_str p) mobileDocumentsMarker

/-- In-scan accumulation state of `DiskScanner` during the blocking `scan`:
`_dir_sizes`, `_total_size`, `_file_count` and the growing `files` list. -/
structure ScanState where
  dirSizes : DirSizes
  total : Int
  count : Nat
  files : List FileInfo

/-- The processing `scan` applies to one walk event: file events update
`_dir_sizes`, the files list, `_total_size` and `_file_count`; directory
events are ignored. -/
def scanStep (icb : Option FPath) (st : ScanState) (ev : ScanEvent) : ScanState :=
  if ev.2.1 then
    let ic := is_icloud_path icb ev.1
    { dirSizes := update_dir_sizes st.dirSizes ev.1 ev.2.2 ic
      total := st.total + ev.2.2
      count := st.count + 1
      files := st.files ++ [⟨ev.1, ev.2.2, ic⟩] }
  else st

/-- Fold of `scanStep` over an event sequence, from the reset state. -/
def scanFold (icb : Option FPath) (evs : List ScanEvent) : ScanState :=
  evs.foldl (scanStep icb) ⟨[], 0, 0, []⟩

/-- The `_dir_sizes` accumulator after a completed blocking scan. -/
def scanDirSizes (opts : ScanOptions) (rootPath : FPath) (root : FSEntry) : DirSizes :=
  (scanFold opts.icloud_base (walk_directory opts.skip_dirs rootPath root).1).dirSizes

/-! ## Spec-side tree sums

Independent recursions over the filesystem tree, used to state what the
scan computes: they count exactly the files the traversal can reach
(symlinks never entered, `skip_dirs` subtrees and unlistable directories
excluded) and a file whose `stat` failed always contributes `0`. -/

mutual

/-- Sum of the sizes of all reachable, successfully stat'ed files in this
entry whose path lies strictly under the directory `D`. A `badFile`
(failed `stat`) contributes nothing. -/
def underSumEntry (skip : List String) (D : FPath) (pp : FPath) : FSEntry → Int
  | .file n s => if D ∈ parents (pp ++ [n]) then s else 0
  | .badFile _ _ => 0
  | .dir n children =>
      if n ∈ skip then 0 else underSumEntries skip D (pp ++ [n]) children
  | .badDir _ _ => 0
  | .symlink _ => 0

/-- The `underSumEntry` summed over a listing. -/
def underSumEntries (skip : List String) (D : FPath) (pp : FPath) :
    List FSEntry → Int
  | [] => 0
  | t :: ts => underSumEntry skip D pp t + underSumEntries skip D pp ts

end

mutual

/-- Total size of all reachable, successfully stat'ed files in this entry. -/
def accessSumEntry (skip : List String) : FSEntry → Int
  | .file _ s => s
  | .dir n children => if n ∈ skip then 0 else accessSumEntries skip children
  | _ => 0

/-- The `accessSumEntry` summed over a listing. -/
def accessSumEntries (skip : List String) : List FSEntry → Int
  | [] => 0
  | t :: ts => accessSumEntry skip t + accessSumEntries skip ts

end

mutual

/-- Number of reachable, successfully stat'ed files in this entry. -/
def accessCountEntry (skip : List String) : FSEntry → Nat
  | .file _ _ => 1
  | .dir n children => if n ∈ skip then 0 else accessCountEntries skip children
  | _ => 0

/-- The `accessCountEntry` summed over a listing. -/
def accessCountEntries (skip : List String) : List FSEntry → Nat
  | [] => 0
  | t :: ts => accessCountEntry skip t + accessCountEntries skip ts

end

mutual

/-- Every reachable access failure in this entry, paired with the path it
occurs at, in traversal order. -/
def issuesEntry (skip : List String) (pp : FPath) : FSEntry → List (FPath × String)
  | .file _ _ => []
  | .badFile n e => [(pp ++ [n], e)]
  | .dir n children =>
      if n ∈ skip then [] else issuesEntries skip (pp ++ [n]) children
  | .badDir n e => if n ∈ skip then [] else [(pp ++ [n], e)]
  | .symlink _ => []

/-- The `issuesEntry` concatenated over a listing. -/
def issuesEntries (skip : List String) (pp : FPath) : List FSEntry → List (FPath × String)
  | [] => []
  | t :: ts => issuesEntry skip pp t ++ issuesEntries skip pp ts

end

/-! ## `DiskScanner._insert_sorted`

Maintains a descending-by-size bounded list. A raised exception
(`IndexError` from `items[-1]` on an empty list) is `none`. -/

/-- The `items[i].size` for an index the binary search produces; the loop only
ever reads indices in `[0, len)`, where the fallback `0` is unreachable. -/
def sizeAt (items : List FileInfo) (i : Int) : Int :=
  match items.get? i.toNat with
  | some x => x.size
  | none => 0

/-- The `while low <= high` binary search of `_insert_sorted`, verbatim;
Python `//` is floor division, `Int.fdiv`. Returns the final `low`. -/
def bsearchLoop (items : List FileInfo) (sz : Int) (low high : Int) : Int :=
  if low ≤ high then
    let mid := (low + high).fdiv 2
    if sizeAt items mid < sz then bsearchLoop items sz low (mid - 1)
    else bsearchLoop items sz (mid + 1) high
  else low
termination_by (high + 1 - low).toNat
decreasing_by
  all_goals
    have h1 := Int.fdiv_add_fmod (low + high) 2
    have h2 : 0 ≤ (low + high).fmod 2 := Int.fmod_nonneg' _ (by norm_num)
    have h3 : (low + high).fmod 2 < 2 := Int.fmod_lt_of_pos _ (by norm_num)
    simp only [mid] at *
    omega

/-- The `items.pop()` at the end of `_insert_sorted`: drop the last element
when the list exceeds `max_items`. -/
def trimTail (items : List FileInfo) (maxItems : Option Nat) : List FileInfo :=
  match maxItems with
  | some k => if items.length > k then items.dropLast else items
  | none => items

/-- The insertion paths of `_insert_sorted` after the capacity check:
append when the item is no larger than the current minimum, prepend when
strictly larger than the current maximum, else binary-search the
insertion point; then trim back to `max_items`. Never raises. -/
def insertCore (items : List FileInfo) (item : FileInfo) (maxItems : Option Nat) :
    List FileInfo :=
  match items with
  | [] => trimTail [item] maxItems
  | first :: rest =>
      let lastI := (first :: rest).getLast (by simp)
      if item.size ≤ lastI.size then trimTail (items ++ [item]) maxItems
      else if item.size > first.size then trimTail (item :: items) maxItems
      else
        let low := bsearchLoop items item.size 0 (items.length - 1)
        trimTail (List.insertIdx low.toNat item items) maxItems

/-- The `_insert_sorted(items, item, max_items)`. The capacity branch
evaluates `item.size <= items[-1].size` left to right, so with
`max_items = 0` and an empty list, `items[-1]` raises `IndexError`
(`none`); otherwise it rejects when at capacity with a small item, and
inserts via `insertCore`. -/
def insert_sorted (items : List FileInfo) (item : FileInfo) (maxItems : Option Nat) :
    Option (List FileInfo) :=
  match maxItems with
  | some k =>
      if items.length ≥ k then
        match items.getLast? with
        | none => none
        | some lastI =>
            if item.size ≤ lastI.size then some items
            else some (insertCore items item maxItems)
      else some (insertCore items item maxItems)
  | none => some (insertCore items item maxItems)

/-! ## Stable descending sort

Python's `list.sort(key=lambda x: x.size, reverse=True)` is a stable
descending sort: ties keep their original relative order. Modelled as
insertion sort where a new element goes after every element of size
`≥` its own. -/

/-- Insert `x` after every element whose size is `≥ x.size` (so a tie goes
after its earlier-arrived equals). -/
def insertAfterGe (x : FileInfo) (l : List FileInfo) : List FileInfo :=
  l.takeWhile (fun y => x.size ≤ y.size) ++ x :: l.dropWhile (fun y => x.size ≤ y.size)

/-- Stable descending-by-size sort (the model of Python's stable
`sort(key=size, reverse=True)`). -/
def stableSortDesc (l : List FileInfo) : List FileInfo :=
  l.foldl (fun acc x => insertAfterGe x acc) []

/-! ## `DiskScanner._get_largest_dirs`

Filters `_dir_sizes` to real directories inside the scan hierarchy
(root, descendants of root, or any ancestor of root), sorts descending by
size and truncates to `max_dirs`. `p.is_dir()` is a live filesystem stat,
passed in as the predicate `fsIsDir`. -/

/-- The `_get_largest_dirs(root)`. -/
def get_largest_dirs (fsIsDir : FPath → Bool) (dirSizes : DirSizes)
    (root : FPath) (maxDirs : Nat) : List FileInfo :=
  let dirs :=
    (dirSizes.filter
      (fun pe =>
        fsIsDir pe.1 &&
          decide (pe.1 = root ∨ root ∈ parents pe.1 ∨ pe.1 ∈ parents root))).map
      (fun pe => (⟨pe.1, pe.2.1, pe.2.2⟩ : FileInfo))
  (stableSortDesc dirs).take maxDirs

/-! ## `DiskScanner.scan` (blocking) -/

/-- The `self._access_issues` built up by `_handle_access_error` in traversal
order: a Python dict keyed by the failing path. -/
def issuesDict (iss : List (FPath × String)) : List (FPath × String) :=
  iss.foldl (fun acc pe => dict_set acc pe.1 pe.2) []

/-- The `scan(root_path)`: `InvalidPathError` (as `.error`) when the root is
not a directory; otherwise walks, aggregates, sorts the collected files
descending (Python's stable sort) and truncates to the option bounds. -/
def scan (opts : ScanOptions) (fsIsDir : FPath → Bool) (rootPath : FPath)
    (root : FSEntry) : Except Unit ScanResult :=
  match root with
  | .dir _ _ | .badDir _ _ =>
      let w := walk_directory opts.skip_dirs rootPath root
      let st := scanFold opts.icloud_base w.1
      Except.ok
        { files := (stableSortDesc st.files).take opts.max_files
          directories := get_largest_dirs fsIsDir st.dirSizes rootPath opts.max_dirs
          total_size := st.total
          files_scanned := st.count
          access_issues := issuesDict w.2 }
  | _ => Except.error ()

/-! ## `DiskScanner.scan_async`

The streaming scan: per file event it aggregates, maintains the Top-K
file list, and on every full 250-file chunk reads the clock; when the
adaptive interval has elapsed it recomputes the largest directories and
emits a `ScanProgress` whose fraction is the saturating estimate
`min(0.95, n/(n+1000))`; on completion it always emits a final snapshot
with fraction `1.0`. The walker is abstracted as the finite event
sequence it yields, and `time.time()` as the stream `times` of clock
readings (one per chunk boundary). An `IndexError` escaping
`_insert_sorted` aborts the generator: `none`. -/

/-- The adaptive `dir_calc_interval` in seconds, from `_file_count`. -/
def dirCalcInterval (c : Nat) : ℚ :=
  if c > 50000 then 5 else if c > 10000 then 3 else if c > 5000 then 2 else 1

/-- The saturating progress estimate `min(0.95, n / (n + 1000))`. -/
def progressEstimate (c : Nat) : ℚ := min (95 / 100) ((c : ℚ) / ((c : ℚ) + 1000))

/-- In-flight state of the `scan_async` generator. -/
structure AsyncState where
  dirSizes : DirSizes
  total : Int
  count : Nat
  largestFiles : List FileInfo
  largestDirs : List FileInfo
  chunkLen : Nat
  lastCalc : ℚ
  timeIdx : Nat
  emitted : List ScanProgress

/-- The guard in front of `_insert_sorted` in `scan_async`:
`not largest_files or len(largest_files) < max_files or size > largest_files[-1].size`. -/
def insertGuard (largestFiles : List FileInfo) (maxFiles : Nat) (size : Int) : Bool :=
  largestFiles.isEmpty || largestFiles.length < maxFiles ||
    (match largestFiles.getLast? with
     | some lastI => size > lastI.size
     | none => false)

/-- One iteration of the `scan_async` event loop. -/
def scan_async_step (opts : ScanOptions) (fsIsDir : FPath → Bool) (times : Nat → ℚ)
    (rootPath : FPath) (st : AsyncState) (ev : ScanEvent) : Option AsyncState :=
  if ev.2.1 then
    let ic := is_icloud_path opts.icloud_base ev.1
    let fi : FileInfo := ⟨ev.1, ev.2.2, ic⟩
    let dirSizes := update_dir_sizes st.dirSizes ev.1 ev.2.2 ic
    (if insertGuard st.largestFiles opts.max_files ev.2.2 then
        insert_sorted st.largestFiles fi (some opts.max_files)
      else some st.largestFiles).map
      (fun largestFiles =>
        let total := st.total + ev.2.2
        let count := st.count + 1
        let chunkLen := st.chunkLen + 1
        if chunkLen ≥ 250 then
          let currentTime := times st.timeIdx
          if currentTime - st.lastCalc ≥ dirCalcInterval count then
            let largestDirs := get_largest_dirs fsIsDir dirSizes rootPath opts.max_dirs
            let snap : ScanProgress :=
              { progress := progressEstimate count
                files := largestFiles.take opts.max_files
                dirs := largestDirs.take opts.max_dirs
                scanned := count
                total_size := total }
            { st with dirSizes, total, count, largestFiles, largestDirs
                      chunkLen := 0, lastCalc := currentTime
                      timeIdx := st.timeIdx + 1
                      emitted := st.emitted ++ [snap] }
          else
            { st with dirSizes, total, count, largestFiles
                      chunkLen := 0, timeIdx := st.timeIdx + 1 }
        else
          { st with dirSizes, total, count, largestFiles, chunkLen })
  else some st

/-- The initial generator state after the reset at the top of `scan_async`. -/
def asyncInit : AsyncState := ⟨[], 0, 0, [], [], 0, 0, 0, []⟩

/-- Run the `scan_async` event loop over the walker's event sequence. -/
def scan_async_run (opts : ScanOptions) (fsIsDir : FPath → Bool) (times : Nat → ℚ)
    (rootPath : FPath) (events : List ScanEvent) : Option AsyncState :=
  events.foldlM (scan_async_step opts fsIsDir times rootPath) asyncInit

/-- The full sequence of `ScanProgress` snapshots `scan_async` yields:
the periodic emissions followed by the terminal snapshot with
fraction `1.0` and the final aggregates. -/
def scan_async_emissions (opts : ScanOptions) (fsIsDir : FPath → Bool)
    (times : Nat → ℚ) (rootPath : FPath) (events : List ScanEvent) :
    Option (List ScanProgress) :=
  (scan_async_run opts fsIsDir times rootPath events).map
    (fun st =>
      let finalDirs := get_largest_dirs fsIsDir st.dirSizes rootPath opts.max_dirs
      st.emitted ++
        [{ progress := 1
           files := st.largestFiles.take opts.max_files
           dirs := finalDirs.take opts.max_dirs
           scanned := st.count
           total_size := st.total }])

/-! ## Textual UI state (`reclaimed/ui/textual_app.py`)

Modelled from the spec where the sources stop short: the `FileInfo` the
UI consumes (re-exported by a `core` module absent from the sources)
additionally carries the modification timestamp — spec §3's
`FileEntry = {path, size, modified, storage_class}`. Nothing below reads
the timestamp except to copy it. -/

/-- The UI's file/directory record. -/
structure UIFileInfo where
  path : FPath
  size : Int
  last_modified : Int
  is_icloud : Bool
deriving DecidableEq

/-- The slice of `ReclaimedApp` state the hide/refresh actions touch. -/
structure AppState where
  scanPath : FPath
  largest_files : List UIFileInfo
  largest_dirs : List UIFileInfo
  hidden_dirs : List FPath

/-- The `_update_parent_sizes_on_hide(hidden_path, hidden_size)`: rebuild the
directory list, shrinking (clamped at zero) every strict ancestor of the
hidden path and keeping every other entry untouched. Pure list surgery —
no filesystem access. -/
def update_parent_sizes_on_hide (dirs : List UIFileInfo) (hiddenPath : FPath)
    (hiddenSize : Int) : List UIFileInfo :=
  dirs.map (fun di =>
    if hiddenPath ≠ di.path ∧ is_relative_to hiddenPath di.path then
      { di with size := max 0 (di.size - hiddenSize) }
    else di)

/-- The `_is_hidden(path)`: the path itself or any of its ancestors is in
`hidden_dirs` (the memo cache is semantically transparent and omitted). -/
def is_hidden (hidden : List FPath) (p : FPath) : Bool :=
  decide (p ∈ hidden) || (parents p).any (fun a => decide (a ∈ hidden))

/-- The `action_hide_selected`, given the path string of the selected
directory row: find the matching entry, add its path to `hidden_dirs`
(a Python set), and shrink the still-tracked ancestors by its last-known
size. No match leaves the state unchanged. -/
def action_hide_selected (st : AppState) (pathStr : String) : AppState :=
  match st.largest_dirs.filter (fun it => decide (path_str it.path = pathStr)) with
  | [] => st
  | m :: _ =>
      { st with
        hidden_dirs :=
          if m.path ∈ st.hidden_dirs then st.hidden_dirs else m.path :: st.hidden_dirs
        largest_dirs := update_parent_sizes_on_hide st.largest_dirs m.path m.size }

/-- The `action_refresh`: clear all hidden state and rescan; the rescan's
results (a pure function of the unchanged filesystem) replace the lists. -/
def action_refresh (st : AppState) (freshFiles freshDirs : List UIFileInfo) : AppState :=
  { st with hidden_dirs := [], largest_files := freshFiles, largest_dirs := freshDirs }

/-- The hidden-item filter `_update_table` applies before rendering. -/
def visible_items (hidden : List FPath) (items : List UIFileInfo) : List UIFileInfo :=
  items.filter (fun it => !is_hidden hidden it.path)

/-! ## `_add_row_to_table`: per-row suppression for the directories table -/

/-- The path-shape suppressions of `_add_row_to_table`: the filesystem
root and top-level directories (≤ 2 `parts`) are skipped unless directly
scanned, and an ancestor more than 2 `parts` above the scan path is
skipped. -/
def dir_row_kept_shape (scanPath : FPath) (it : UIFileInfo) : Bool :=
  if it.path = [] ∨ (parts_count it.path ≤ 2 ∧ it.path ≠ scanPath) then false
  else if is_relative_to scanPath it.path ∧ it.path ≠ scanPath ∧
      parts_count scanPath - parts_count it.path > 2 then false
  else true

/-- The `scan_dir_size` loop of `_add_row_to_table`: the size recorded
for the scanned directory itself among the tracked directories, else 0. -/
def scan_dir_size_of (scanPath : FPath) (largestDirs : List UIFileInfo) : Int :=
  match largestDirs.find? (fun di => decide (di.path = scanPath)) with
  | some di => di.size
  | none => 0

/-- The 1%-of-scan-root suppression test of `_add_row_to_table`:
`scan_dir_size > 0 and abs(item.size - scan_dir_size) / scan_dir_size < 0.01`. -/
def within_one_percent (itemSize scanDirSize : Int) : Bool :=
  decide (scanDirSize > 0) &&
    decide (|(itemSize : ℚ) - (scanDirSize : ℚ)| / (scanDirSize : ℚ) < (1 / 100 : ℚ))

/-- Whether `_add_row_to_table` adds this row to the directories table:
first the 1%-of-scan-root ancestor suppression, then the path-shape
suppressions. -/
def dir_row_kept (scanPath : FPath) (largestDirs : List UIFileInfo)
    (it : UIFileInfo) : Bool :=
  if is_relative_to scanPath it.path ∧ it.path ≠ scanPath then
    if within_one_percent it.size (scan_dir_size_of scanPath largestDirs) then false
    else dir_row_kept_shape scanPath it
  else dir_row_kept_shape scanPath it

/-- The rows of the directories table rendered from a directory list. -/
def dirs_table_rows (scanPath : FPath) (dirs : List UIFileInfo) : List UIFileInfo :=
  dirs.filter (dir_row_kept scanPath dirs)

/-- Lift a scanner `FileInfo` into the UI record (timestamp as observed). -/
def toUI (lm : Int) (f : FileInfo) : UIFileInfo := ⟨f.path, f.size, lm, f.is_icloud⟩

/-! ## `save_results` and `format_size` -/

/-- The `SizeFormatter.UNITS`. -/
def UNITS : List (Int × String) :=
  [(1, "B"), (1024, "KB"), (1024 * 1024, "MB"), (1024 * 1024 * 1024, "GB"),
   (1024 * 1024 * 1024 * 1024, "TB"), (1024 * 1024 * 1024 * 1024 * 1024, "PB")]

/-- The `f"{q:.1f}"` for the nonnegative values `format_size` produces
(Python's float formatting rounds half to even; the boundary cases where
that differs from `round` are not relied on by any claim). -/
def fmtFixed1 (q : ℚ) : String :=
  let d : Int := round (q * 10)
  let dot : String := "."
  toString (d / 10) ++ dot ++ toString ((d % 10).natAbs)

/-- The `SizeFormatter.format_size(size, precision=1)`: raises `ValueError`
(`none`) on negative sizes, renders `0` as `"0.0 B"`, otherwise scales by
the largest unit not exceeding the size. -/
def format_size (size : Int) : Option String :=
  if size < 0 then none
  else if size = 0 then
    let zs : String := "0.0 "
    some (zs ++ "B")
  else
    match UNITS.reverse.find? (fun u => size ≥ u.1) with
    | some u =>
        let sp : String := " "
        some (fmtFixed1 ((size : ℚ) / (u.1 : ℚ)) ++ sp ++ u.2)
    | none =>
        let sp : String := " B"
        some (toString size ++ sp)

/-- The `storage_type` label written for iCloud records. -/
def icloudLabel : String := "icloud"

/-- The `storage_type` label written for local records. -/
def localLabel : String := "local"

/-- One record of `largest_files` / `largest_directories` in the export. -/
structure ExportEntry where
  path : String
  size_bytes : Int
  size_human : String
  storage_type : String
deriving DecidableEq

/-- The `scan_info` block of the export. -/
structure ExportScanInfo where
  timestamp : String
  scanned_path : String
  total_size_bytes : Int
  total_size_human : String
  files_scanned : Nat
deriving DecidableEq

/-- One record of the `access_issues` list in the export. -/
structure ExportIssue where
  path : String
  error : String
deriving DecidableEq

/-- The JSON document `save_results` writes. -/
structure ExportDoc where
  scan_info : ExportScanInfo
  largest_files : List ExportEntry
  largest_directories : List ExportEntry
  access_issues : List ExportIssue
deriving DecidableEq

/-- One file/directory record of the export:
`{path, size_bytes, size_human, storage_type}` with
`storage_type = "icloud" if f.is_icloud else "local"`. -/
def exportEntry (f : FileInfo) : Option ExportEntry :=
  (format_size f.size).map (fun h =>
    { path := path_str f.path
      size_bytes := f.size
      size_human := h
      storage_type := if f.is_icloud then icloudLabel else localLabel })

/-- The `save_results(output_path, files, dirs, scanned_path)`: the document
written to disk, built from the scanner's terminal state; the timestamp
is `datetime.now()`, taken as a parameter. A `ValueError` from
`format_size` propagates (`none`). -/
def save_results (timestamp : String) (scannedPath : FPath) (totalSize : Int)
    (fileCount : Nat) (accessIssues : List (FPath × String))
    (files dirs : List FileInfo) : Option ExportDoc := do
  let totalHuman ← format_size totalSize
  let lf ← files.mapM exportEntry
  let ld ← dirs.mapM exportEntry
  pure
    { scan_info :=
        { timestamp := timestamp
          scanned_path := path_str scannedPath
          total_size_bytes := totalSize
          total_size_human := totalHuman
          files_scanned := fileCount }
      largest_files := lf
      largest_directories := ld
      access_issues := accessIssues.map (fun pe => ⟨path_str pe.1, pe.2⟩) }

/-! ## Derived measures used to state the claims -/

/-- Repeated `_insert_sorted` insertion with capacity `K`,
starting from an empty list (the Top-K selector run on a sequence);
`none` if any insertion raises. -/
def topKFold (K : Nat) (xs : List FileInfo) : Option (List FileInfo) :=
  xs.foldlM (fun acc x => insert_sorted acc x (some K)) []

/-- Sum of the sizes of the file events of an event sequence whose path
lies strictly below the directory `D`. -/
def eventsSumUnder (D : FPath) (evs : List ScanEvent) : Int :=
  (evs.map (fun ev => if ev.2.1 ∧ D ∈ parents ev.1 then ev.2.2 else 0)).sum

/-- Sum of the sizes of all file events of an event sequence. -/
def eventsSum (evs : List ScanEvent) : Int :=
  (evs.map (fun ev => if ev.2.1 then ev.2.2 else 0)).sum

/-- Number of file events of an event sequence. -/
def eventsCount (evs : List ScanEvent) : Nat :=
  (evs.filter (fun ev => ev.2.1)).length

/-- Descending-by-size ordering on records (what "sorted descending"
means for Top-K lists and directory views). -/
def SizeSortedDesc (l : List FileInfo) : Prop :=
  l.Pairwise (fun a b => b.size ≤ a.size)

/-- Descending-by-size ordering on UI records. -/
def SizeSortedDescUI (l : List UIFileInfo) : Prop :=
  l.Pairwise (fun a b => b.size ≤ a.size)

/-! # Theorems

First the path/dictionary toolbox, then one theorem per claim (with its
witness or counterexample where required). -/

theorem mem_parents {q p : FPath} : q ∈ parents p ↔ q <+: p ∧ q ≠ p := by
  unfold parents
  simp only [List.mem_map, List.mem_reverse, List.mem_range]
  constructor
  · rintro ⟨k, hk, rfl⟩
    refine ⟨⟨p.drop k, List.take_append_drop k p⟩, ?_⟩
    intro h
    have hlen := congrArg List.length h
    simp only [List.length_take] at hlen
    omega
  · rintro ⟨⟨t, rfl⟩, hne⟩
    refine ⟨q.length, ?_, ?_⟩
    · have ht : t ≠ [] := by rintro rfl; simp at hne
      have : 0 < t.length := List.length_pos.mpr ht
      simp only [List.length_append]
      omega
    · exact List.take_left q t

theorem parents_nodup (p : FPath) : (parents p).Nodup := by
  unfold parents
  refine List.Nodup.map_on ?_ (by simp [List.nodup_range])
  intro x hx y hy hxy
  simp only [List.mem_reverse, List.mem_range] at hx hy
  have hx' := congrArg List.length hxy
  simp only [List.length_take] at hx'
  omega

theorem dict_get_set_self {α β : Type} [DecidableEq α] (d : List (α × β)) (k : α)
    (v : β) : dict_get (dict_set d k v) k = some v := by
  induction d with
  | nil => simp [dict_set, dict_get]
  | cons hd tl ih =>
      obtain ⟨a, b⟩ := hd
      by_cases h : a = k
      · subst h
        simp [dict_set, dict_get]
      · simp [dict_set, dict_get, h, ih]

theorem dict_get_set_ne {α β : Type} [DecidableEq α] (d : List (α × β)) (k k' : α)
    (v : β) (h : k' ≠ k) : dict_get (dict_set d k v) k' = dict_get d k' := by
  induction d with
  | nil => simp [dict_set, dict_get, Ne.symm h]
  | cons hd tl ih =>
      obtain ⟨a, b⟩ := hd
      by_cases h1 : a = k
      · subst h1
        simp [dict_set, dict_get, Ne.symm h]
      · by_cases h2 : a = k'
        · simp [dict_set, dict_get, h1, h2, h]
        · simp [dict_set, dict_get, h1, h2, ih]

/-- Value recorded at `q` after folding the per-ancestor bump of
`_update_dir_sizes` over a duplicate-free key list. -/
theorem foldl_bump_get (ks : List FPath) (hnd : ks.Nodup) (d : DirSizes)
    (s : Int) (c : Bool) (q : FPath) :
    dict_get
        (ks.foldl
          (fun acc parent =>
            let curr := (dict_get acc parent).getD (0, false)
            dict_set acc parent (curr.1 + s, curr.2 || c))
          d) q
      = if q ∈ ks then
          some (((dict_get d q).getD (0, false)).1 + s,
                ((dict_get d q).getD (0, false)).2 || c)
        else dict_get d q := by
  induction ks generalizing d with
  | nil => simp
  | cons k ks ih =>
      have hk : k ∉ ks := (List.nodup_cons.mp hnd).1
      have hnd' : ks.Nodup := (List.nodup_cons.mp hnd).2
      simp only [List.foldl_cons]
      rw [ih hnd']
      by_cases hq : q = k
      · subst hq
        have hqks : q ∉ ks := hk
        simp [hqks, dict_get_set_self]
      · by_cases hqs : q ∈ ks
        · simp [hqs, dict_get_set_ne _ _ _ _ hq]
        · simp [hqs, hq, dict_get_set_ne _ _ _ _ hq,
                List.mem_cons, fun h => hq h]

/-- The `_update_dir_sizes` adds the file size to the recorded size of every
ancestor of the file — the whole `file_path.parents` chain — and leaves
every other entry unchanged. -/
theorem update_dir_sizes_size (d : DirSizes) (p : FPath) (s : Int) (c : Bool)
    (q : FPath) :
    recordedSize (update_dir_sizes d p s c) q
      = if q ∈ parents p then recordedSize d q + s else recordedSize d q := by
  unfold update_dir_sizes recordedSize
  rw [foldl_bump_get (parents p) (parents_nodup p) d s c q]
  by_cases hq : q ∈ parents p <;> simp [hq]

/-- The `_update_dir_sizes` ORs the storage-class flag into every ancestor's
entry and leaves every other entry unchanged. -/
theorem update_dir_sizes_cloud (d : DirSizes) (p : FPath) (s : Int) (c : Bool)
    (q : FPath) :
    recordedCloud (update_dir_sizes d p s c) q
      = if q ∈ parents p then recordedCloud d q || c else recordedCloud d q := by
  unfold update_dir_sizes recordedCloud
  rw [foldl_bump_get (parents p) (parents_nodup p) d s c q]
  by_cases hq : q ∈ parents p <;> simp [hq]

/-- C3 (as frozen) is false on the code: processing the file event
`/home/user/big.bin` of size 7 while scanning root `/home/user` adds the
size to the accumulator entry of `/home` — a directory strictly above the
scan root, which the claim says receives nothing. -/
theorem C3_counterexample :
    recordedSize
        (scanDirSizes {} (["home", "user"] : FPath)
          (.dir ("user") [.file ("big.bin") 7]))
        (["home"] : FPath) = 7
      ∧ (["home"] : FPath) ∈ parents (["home", "user"] : FPath)
      ∧ (["home"] : FPath) ≠ (["home", "user"] : FPath) := by
  refine ⟨?_, by decide, by decide⟩
  rfl

/-- C3, amended: for every file event `(path, size, storage_class)`,
`_update_dir_sizes` adds `size` to the accumulator entry of every
ancestor directory of the file — the entire parent chain up to the
filesystem root, *including* the scan root and every directory above
it — ORs the storage-class flag into each touched entry, and leaves every
non-ancestor entry unchanged. Ancestry is path containment (a strict
segment-wise ancestor, `q ∈ parents path`). -/
theorem C3_update_dir_sizes_all_ancestors (d : DirSizes) (p : FPath) (s : Int)
    (c : Bool) (q : FPath) :
    (q ∈ parents p →
        recordedSize (update_dir_sizes d p s c) q = recordedSize d q + s
          ∧ recordedCloud (update_dir_sizes d p s c) q = (recordedCloud d q || c))
      ∧ (q ∉ parents p →
          recordedSize (update_dir_sizes d p s c) q = recordedSize d q
            ∧ recordedCloud (update_dir_sizes d p s c) q = recordedCloud d q) := by
  constructor
  · intro hq
    rw [update_dir_sizes_size, update_dir_sizes_cloud]
    simp [hq]
  · intro hq
    rw [update_dir_sizes_size, update_dir_sizes_cloud]
    simp [hq]

/-- Witness for the amended C3 at a concrete input: `/home` is an
ancestor of `/home/user/big.bin`, and the update bumps its entry. -/
theorem C3_update_dir_sizes_all_ancestors_witness :
    ((["home"] : FPath) ∈ parents (["home", "user", "big.bin"] : FPath) →
        recordedSize (update_dir_sizes [] ["home", "user", "big.bin"] 7 false) ["home"]
            = recordedSize [] ["home"] + 7
          ∧ recordedCloud (update_dir_sizes [] ["home", "user", "big.bin"] 7 false) ["home"]
            = (recordedCloud [] ["home"] || false))
      ∧ ((["home"] : FPath) ∉ parents (["home", "user", "big.bin"] : FPath) →
          recordedSize (update_dir_sizes [] ["home", "user", "big.bin"] 7 false) ["home"]
              = recordedSize [] ["home"]
            ∧ recordedCloud (update_dir_sizes [] ["home", "user", "big.bin"] 7 false) ["home"]
              = recordedCloud [] ["home"]) :=
  C3_update_dir_sizes_all_ancestors [] ["home", "user", "big.bin"] 7 false ["home"]

theorem eventsSumUnder_append (D : FPath) (a b : List ScanEvent) :
    eventsSumUnder D (a ++ b) = eventsSumUnder D a + eventsSumUnder D b := by
  simp [eventsSumUnder]

theorem eventsSum_append (a b : List ScanEvent) :
    eventsSum (a ++ b) = eventsSum a + eventsSum b := by
  simp [eventsSum]

theorem eventsCount_append (a b : List ScanEvent) :
    eventsCount (a ++ b) = eventsCount a + eventsCount b := by
  simp [eventsCount]

/-- Folding the scan loop over events accumulates, per directory, exactly
the sizes of the file events strictly below it. -/
theorem foldl_scanStep_size (icb : Option FPath) (evs : List ScanEvent)
    (st : ScanState) (D : FPath) :
    recordedSize ((evs.foldl (scanStep icb) st).dirSizes) D
      = recordedSize st.dirSizes D + eventsSumUnder D evs := by
  induction evs generalizing st with
  | nil => simp [eventsSumUnder]
  | cons ev evs ih =>
      obtain ⟨p, isF, s⟩ := ev
      rw [List.foldl_cons, ih]
      have hcons : eventsSumUnder D ((p, isF, s) :: evs)
          = (if isF = true ∧ D ∈ parents p then s else 0) + eventsSumUnder D evs := by
        simp [eventsSumUnder]
      rw [hcons]
      cases isF
      · simp [scanStep]
      · simp only [scanStep, if_pos]
        rw [update_dir_sizes_size]
        by_cases hD : D ∈ parents p
        · rw [if_pos hD, if_pos (⟨by trivial, hD⟩ : _ ∧ _)]
          omega
        · rw [if_neg hD, if_neg (fun h => hD h.2)]
          omega

/-- The fold accumulates `_total_size` as the sum of all file events. -/
theorem foldl_scanStep_total (icb : Option FPath) (evs : List ScanEvent)
    (st : ScanState) :
    (evs.foldl (scanStep icb) st).total = st.total + eventsSum evs := by
  induction evs generalizing st with
  | nil => simp [eventsSum]
  | cons ev evs ih =>
      obtain ⟨p, isF, s⟩ := ev
      simp only [List.foldl_cons, eventsSum, List.map_cons, List.sum_cons]
      rw [ih]
      cases isF with
      | false => simp [scanStep, eventsSum]
      | true =>
          simp only [scanStep, if_pos]
          simp [eventsSum]
          omega

/-- The fold accumulates `_file_count` as the number of file events. -/
theorem foldl_scanStep_count (icb : Option FPath) (evs : List ScanEvent)
    (st : ScanState) :
    (evs.foldl (scanStep icb) st).count = st.count + eventsCount evs := by
  induction evs generalizing st with
  | nil => simp [eventsCount]
  | cons ev evs ih =>
      obtain ⟨p, isF, s⟩ := ev
      simp only [List.foldl_cons]
      rw [ih]
      cases isF with
      | false => simp [scanStep, eventsCount]
      | true =>
          simp only [scanStep, if_pos]
          simp [eventsCount, List.filter]
          omega

mutual

/-- The walk's file events below `D` sum to the spec-side tree sum. -/
theorem walk_entry_sumUnder (skip : List String) (D pp : FPath) (t : FSEntry) :
    eventsSumUnder D (walk_entry skip pp t).1 = underSumEntry skip D pp t := by
  cases t with
  | file n s => simp [walk_entry, underSumEntry, eventsSumUnder]
  | badFile n e => simp [walk_entry, underSumEntry, eventsSumUnder]
  | symlink n => simp [walk_entry, underSumEntry, eventsSumUnder]
  | badDir n e =>
      by_cases h : n ∈ skip <;>
        simp [walk_entry, underSumEntry, eventsSumUnder_append, h, eventsSumUnder]
  | dir n children =>
      by_cases h : n ∈ skip
      · simp [walk_entry, underSumEntry, eventsSumUnder_append, h, eventsSumUnder]
      · simp only [walk_entry, underSumEntry, if_neg h]
        rw [eventsSumUnder_append, walk_entries_sumUnder]
        simp [eventsSumUnder]

/-- List version of `walk_entry_sumUnder`. -/
theorem walk_entries_sumUnder (skip : List String) (D pp : FPath)
    (ts : List FSEntry) :
    eventsSumUnder D (walk_entries skip pp ts).1 = underSumEntries skip D pp ts := by
  cases ts with
  | nil => simp [walk_entries, underSumEntries, eventsSumUnder]
  | cons t ts =>
      simp only [walk_entries, underSumEntries]
      rw [eventsSumUnder_append, walk_entry_sumUnder, walk_entries_sumUnder]

end

mutual

/-- The walk's file events sum to the accessible-files total. -/
theorem walk_entry_sum (skip : List String) (pp : FPath) (t : FSEntry) :
    eventsSum (walk_entry skip pp t).1 = accessSumEntry skip t := by
  cases t with
  | file n s => simp [walk_entry, accessSumEntry, eventsSum]
  | badFile n e => simp [walk_entry, accessSumEntry, eventsSum]
  | symlink n => simp [walk_entry, accessSumEntry, eventsSum]
  | badDir n e =>
      by_cases h : n ∈ skip <;>
        simp [walk_entry, accessSumEntry, eventsSum_append, h, eventsSum]
  | dir n children =>
      by_cases h : n ∈ skip
      · simp [walk_entry, accessSumEntry, eventsSum_append, h, eventsSum]
      · simp only [walk_entry, accessSumEntry, if_neg h]
        rw [eventsSum_append, walk_entries_sum]
        simp [eventsSum]

/-- List version of `walk_entry_sum`. -/
theorem walk_entries_sum (skip : List String) (pp : FPath) (ts : List FSEntry) :
    eventsSum (walk_entries skip pp ts).1 = accessSumEntries skip ts := by
  cases ts with
  | nil => simp [walk_entries, accessSumEntries, eventsSum]
  | cons t ts =>
      simp only [walk_entries, accessSumEntries]
      rw [eventsSum_append, walk_entry_sum, walk_entries_sum]

end

mutual

/-- The walk yields one file event per accessible stat'ed file. -/
theorem walk_entry_count (skip : List String) (pp : FPath) (t : FSEntry) :
    eventsCount (walk_entry skip pp t).1 = accessCountEntry skip t := by
  cases t with
  | file n s => simp [walk_entry, accessCountEntry, eventsCount]
  | badFile n e => simp [walk_entry, accessCountEntry, eventsCount]
  | symlink n => simp [walk_entry, accessCountEntry, eventsCount]
  | badDir n e =>
      by_cases h : n ∈ skip <;>
        simp [walk_entry, accessCountEntry, eventsCount_append, h, eventsCount]
  | dir n children =>
      by_cases h : n ∈ skip
      · simp [walk_entry, accessCountEntry, eventsCount_append, h, eventsCount]
      · simp only [walk_entry, accessCountEntry, if_neg h]
        rw [eventsCount_append, walk_entries_count]
        simp [eventsCount]

/-- List version of `walk_entry_count`. -/
theorem walk_entries_count (skip : List String) (pp : FPath) (ts : List FSEntry) :
    eventsCount (walk_entries skip pp ts).1 = accessCountEntries skip ts := by
  cases ts with
  | nil => simp [walk_entries, accessCountEntries, eventsCount]
  | cons t ts =>
      simp only [walk_entries, accessCountEntries]
      rw [eventsCount_append, walk_entry_count, walk_entries_count]

end

mutual

/-- The walk records exactly the reachable access failures, in order. -/
theorem walk_entry_issues (skip : List String) (pp : FPath) (t : FSEntry) :
    (walk_entry skip pp t).2 = issuesEntry skip pp t := by
  cases t with
  | file n s => simp [walk_entry, issuesEntry]
  | badFile n e => simp [walk_entry, issuesEntry]
  | symlink n => simp [walk_entry, issuesEntry]
  | badDir n e => by_cases h : n ∈ skip <;> simp [walk_entry, issuesEntry, h]
  | dir n children =>
      by_cases h : n ∈ skip
      · simp [walk_entry, issuesEntry, h]
      · simp only [walk_entry, issuesEntry, if_neg h]
        rw [walk_entries_issues]

/-- List version of `walk_entry_issues`. -/
theorem walk_entries_issues (skip : List String) (pp : FPath) (ts : List FSEntry) :
    (walk_entries skip pp ts).2 = issuesEntries skip pp ts := by
  cases ts with
  | nil => simp [walk_entries, issuesEntries]
  | cons t ts =>
      simp only [walk_entries, issuesEntries]
      rw [walk_entry_issues, walk_entries_issues]

end

/-- C1: for every directory `D` (in particular every directory inside the
scan root), after a completed scan the size recorded for `D` in
`_dir_sizes` equals the sum of the sizes of all traversable files
strictly below `D` whose `stat` succeeded; a file whose `stat` failed
(`badFile`, excluded by `underSumEntry`) contributes nothing to any
directory's aggregate. -/
theorem C1_dir_aggregation (opts : ScanOptions) (rootPath : FPath) (name : String)
    (children : List FSEntry) (D : FPath) :
    recordedSize (scanDirSizes opts rootPath (.dir name children)) D
      = underSumEntries opts.skip_dirs D rootPath children := by
  unfold scanDirSizes walk_directory scanFold
  rw [foldl_scanStep_size, walk_entries_sumUnder]
  simp [recordedSize, dict_get]

theorem dict_get_append {α β : Type} [DecidableEq α] (a b : List (α × β)) (k : α) :
    dict_get (a ++ b) k
      = match dict_get a k with
        | some v => some v
        | none => dict_get b k := by
  induction a with
  | nil => simp [dict_get]
  | cons hd tl ih =>
      obtain ⟨x, y⟩ := hd
      by_cases h : x = k
      · simp [dict_get, h]
      · simp [dict_get, h, ih]

theorem dict_set_fresh {α β : Type} [DecidableEq α] (d : List (α × β)) (k : α)
    (v : β) (h : dict_get d k = none) : dict_set d k v = d ++ [(k, v)] := by
  induction d with
  | nil => simp [dict_set]
  | cons hd tl ih =>
      obtain ⟨x, y⟩ := hd
      by_cases hx : x = k
      · simp [dict_get, hx] at h
      · simp only [dict_get, if_neg hx] at h
        simp [dict_set, hx, ih h]

/-- Building a Python dict from key-distinct pairs keeps the pairs as-is,
in order. -/
theorem foldl_dict_set_fresh {α β : Type} [DecidableEq α] (l : List (α × β)) :
    ∀ acc : List (α × β), (∀ pe ∈ l, dict_get acc pe.1 = none) →
      (l.map Prod.fst).Nodup →
      l.foldl (fun acc pe => dict_set acc pe.1 pe.2) acc = acc ++ l := by
  induction l with
  | nil => intro acc _ _; simp
  | cons hd tl ih =>
      intro acc hfresh hnd
      obtain ⟨k, v⟩ := hd
      have hk : dict_get acc k = none := hfresh (k, v) (by simp)
      simp only [List.foldl_cons]
      rw [dict_set_fresh acc k v hk]
      rw [ih (acc ++ [(k, v)]) ?_ ((List.nodup_cons.mp hnd).2)]
      · simp
      · intro pe hpe
        rw [dict_get_append]
        have h1 : dict_get acc pe.1 = none := hfresh pe (by simp [hpe])
        rw [h1]
        have hne : pe.1 ≠ k := by
          intro he
          have : k ∈ tl.map Prod.fst := by
            refine List.mem_map.mpr ⟨pe, hpe, he⟩
          exact (List.nodup_cons.mp hnd).1 this
        simp [dict_get, hne, Ne.symm hne]

/-- The `_access_issues` as a dict equals the recorded issue list when the
failing paths are pairwise distinct. -/
theorem issuesDict_eq_of_nodup (l : List (FPath × String))
    (h : (l.map Prod.fst).Nodup) : issuesDict l = l := by
  unfold issuesDict
  rw [foldl_dict_set_fresh l [] (fun pe _ => rfl) h]
  simp

mutual

/-- Every issue recorded inside one entry lies at or below that entry's
own path. -/
theorem issuesEntry_keys_below (skip : List String) (pp : FPath) (t : FSEntry) :
    ∀ qe ∈ issuesEntry skip pp t, (pp ++ [entryName t]) <+: qe.1 := by
  cases t with
  | file n s => simp [issuesEntry]
  | badFile n e =>
      intro qe hqe
      simp only [issuesEntry, List.mem_singleton] at hqe
      subst hqe
      exact ⟨[], by simp [entryName]⟩
  | symlink n => simp [issuesEntry]
  | badDir n e =>
      intro qe hqe
      by_cases h : n ∈ skip
      · simp [issuesEntry, h] at hqe
      · simp only [issuesEntry, if_neg h, List.mem_singleton] at hqe
        subst hqe
        exact ⟨[], by simp [entryName]⟩
  | dir n children =>
      intro qe hqe
      by_cases h : n ∈ skip
      · simp [issuesEntry, h] at hqe
      · simp only [issuesEntry, if_neg h] at hqe
        obtain ⟨u, hu, hpref⟩ := issuesEntries_keys_below skip (pp ++ [n]) children qe hqe
        obtain ⟨r, hr⟩ := hpref
        exact ⟨entryName u :: r, by simp [entryName, ← hr]⟩

/-- Every issue recorded inside a listing lies below one of its entries. -/
theorem issuesEntries_keys_below (skip : List String) (pp : FPath)
    (ts : List FSEntry) :
    ∀ qe ∈ issuesEntries skip pp ts, ∃ u ∈ ts, (pp ++ [entryName u]) <+: qe.1 := by
  cases ts with
  | nil => simp [issuesEntries]
  | cons t ts =>
      intro qe hqe
      simp only [issuesEntries, List.mem_append] at hqe
      rcases hqe with hqe | hqe
      · exact ⟨t, by simp, issuesEntry_keys_below skip pp t qe hqe⟩
      · obtain ⟨u, hu, hp⟩ := issuesEntries_keys_below skip pp ts qe hqe
        exact ⟨u, by simp [hu], hp⟩

end

mutual

/-- In a well-formed tree the failing paths recorded inside one entry are
pairwise distinct. -/
theorem issuesEntry_keys_nodup (skip : List String) (pp : FPath) (t : FSEntry)
    (hwf : wfEntry t = true) :
    ((issuesEntry skip pp t).map Prod.fst).Nodup := by
  cases t with
  | file n s => simp [issuesEntry]
  | badFile n e => simp [issuesEntry]
  | symlink n => simp [issuesEntry]
  | badDir n e => by_cases h : n ∈ skip <;> simp [issuesEntry, h]
  | dir n children =>
      by_cases h : n ∈ skip
      · simp [issuesEntry, h]
      · simp only [issuesEntry, if_neg h]
        simp only [wfEntry, Bool.and_eq_true, decide_eq_true_eq] at hwf
        exact issuesEntries_keys_nodup skip (pp ++ [n]) children hwf.1 hwf.2

/-- In a well-formed listing with distinct names, all recorded failing
paths are pairwise distinct. -/
theorem issuesEntries_keys_nodup (skip : List String) (pp : FPath)
    (ts : List FSEntry) (hn : (ts.map entryName).Nodup)
    (hwf : wfEntries ts = true) :
    ((issuesEntries skip pp ts).map Prod.fst).Nodup := by
  cases ts with
  | nil => simp [issuesEntries]
  | cons t ts =>
      simp only [issuesEntries, List.map_append]
      simp only [wfEntries, Bool.and_eq_true] at hwf
      simp only [List.map_cons, List.nodup_cons] at hn
      refine List.Nodup.append
        (issuesEntry_keys_nodup skip pp t hwf.1)
        (issuesEntries_keys_nodup skip pp ts hn.2 hwf.2) ?_
      intro q hq1 hq2
      obtain ⟨qe1, hqe1, rfl⟩ := List.mem_map.mp hq1
      obtain ⟨qe2, hqe2, heq⟩ := List.mem_map.mp hq2
      obtain ⟨r1, hr1⟩ := issuesEntry_keys_below skip pp t qe1 hqe1
      obtain ⟨u, hu, r2, hr2⟩ := issuesEntries_keys_below skip pp ts qe2 hqe2
      rw [heq] at hr2
      rw [← hr1] at hr2
      have hr2' : pp ++ (entryName u :: r2) = pp ++ (entryName t :: r1) := by
        simpa using hr2
      have : entryName u :: r2 = entryName t :: r1 := List.append_cancel_left hr2'
      have hname : entryName u = entryName t := by injection this
      exact hn.1 (hname ▸ List.mem_map.mpr ⟨u, hu, rfl⟩)

end

/-- C4: a permission or I/O failure while listing or stating any entry
never aborts the scan: on a well-formed tree whose root is a directory,
`scan` always returns a result; its `access_issues` map records exactly
the reachable failures, each under the path that failed; `total_bytes`
and `files_scanned` count exactly the files outside failed or skipped
subtrees, so a failed subtree's bytes are excluded. -/
theorem C4_access_failures (opts : ScanOptions) (fsIsDir : FPath → Bool)
    (rootPath : FPath) (name : String) (children : List FSEntry)
    (hwf : wfEntry (.dir name children) = true) :
    ∃ r, scan opts fsIsDir rootPath (.dir name children) = Except.ok r
      ∧ r.access_issues = issuesEntries opts.skip_dirs rootPath children
      ∧ r.total_size = accessSumEntries opts.skip_dirs children
      ∧ r.files_scanned = accessCountEntries opts.skip_dirs children := by
  refine ⟨_, rfl, ?_, ?_, ?_⟩
  · show issuesDict (walk_directory opts.skip_dirs rootPath (.dir name children)).2 = _
    simp only [walk_directory]
    rw [walk_entries_issues]
    refine issuesDict_eq_of_nodup _ ?_
    simp only [wfEntry, Bool.and_eq_true, decide_eq_true_eq] at hwf
    exact issuesEntries_keys_nodup opts.skip_dirs rootPath children hwf.1 hwf.2
  · show (scanFold opts.icloud_base
        (walk_directory opts.skip_dirs rootPath (.dir name children)).1).total = _
    unfold scanFold walk_directory
    rw [foldl_scanStep_total, walk_entries_sum]
    simp
  · show (scanFold opts.icloud_base
        (walk_directory opts.skip_dirs rootPath (.dir name children)).1).count = _
    unfold scanFold walk_directory
    rw [foldl_scanStep_count, walk_entries_count]
    simp

/-- Witness for C4, scenario C: one subdirectory is unreadable; the scan
still succeeds, the issue is recorded against exactly that path, and the
unreadable subtree's bytes are excluded from the total. -/
theorem C4_access_failures_witness :
    wfEntry (.dir ("root")
        [FSEntry.file ("a.txt") 500,
         FSEntry.badDir ("locked") ("PermissionError: denied"),
         FSEntry.dir ("dir1") [FSEntry.file ("b.txt") 1000]]) = true
      ∧ ∃ r, scan {} (fun _ => true) ["home"]
            (.dir ("root")
              [FSEntry.file ("a.txt") 500,
               FSEntry.badDir ("locked") ("PermissionError: denied"),
               FSEntry.dir ("dir1") [FSEntry.file ("b.txt") 1000]]) = Except.ok r
          ∧ r.access_issues
              = issuesEntries ({} : ScanOptions).skip_dirs ["home"]
                  [FSEntry.file ("a.txt") 500,
                   FSEntry.badDir ("locked") ("PermissionError: denied"),
                   FSEntry.dir ("dir1") [FSEntry.file ("b.txt") 1000]]
          ∧ r.total_size
              = accessSumEntries ({} : ScanOptions).skip_dirs
                  [FSEntry.file ("a.txt") 500,
                   FSEntry.badDir ("locked") ("PermissionError: denied"),
                   FSEntry.dir ("dir1") [FSEntry.file ("b.txt") 1000]]
          ∧ r.files_scanned
              = accessCountEntries ({} : ScanOptions).skip_dirs
                  [FSEntry.file ("a.txt") 500,
                   FSEntry.badDir ("locked") ("PermissionError: denied"),
                   FSEntry.dir ("dir1") [FSEntry.file ("b.txt") 1000]] :=
  ⟨by decide,
   C4_access_failures {} (fun _ => true) ["home"] ("root")
     [FSEntry.file ("a.txt") 500,
      FSEntry.badDir ("locked") ("PermissionError: denied"),
      FSEntry.dir ("dir1") [FSEntry.file ("b.txt") 1000]]
     (by decide)⟩

/-- C9: the code crashes where the claim (and the spec's "K=0 always
rejects", and the function's own "Skip insertion" comment) requires a
silent rejection: with `max_items = 0` and an empty held list, the
capacity branch `len(items) >= max_items and item.size <= items[-1].size`
evaluates `items[-1]` on the empty list and raises `IndexError` (`none`)
instead of rejecting the item. -/
theorem C9_insert_k0_raises :
    insert_sorted [] (⟨["f"], 0, false⟩ : FileInfo) (some 0) = none := rfl

/-! ### takeWhile boundary toolbox (for the Top-K proofs) -/

theorem takeWhile_eq_take_boundary {α : Type} (p : α → Bool) (l : List α) :
    l.takeWhile p = l.take (l.takeWhile p).length := by
  have htp : l.takeWhile p <+: l := List.takeWhile_prefix p
  obtain ⟨t, ht⟩ := htp
  conv_lhs => rw [← List.take_left (l.takeWhile p) t]
  rw [ht]

theorem dropWhile_eq_drop_boundary {α : Type} (p : α → Bool) (l : List α) :
    l.dropWhile p = l.drop (l.takeWhile p).length := by
  have h1 : l.takeWhile p ++ l.dropWhile p = l := by simp
  have h2 : l.take (l.takeWhile p).length ++ l.drop (l.takeWhile p).length = l :=
    List.take_append_drop _ l
  rw [takeWhile_eq_take_boundary p l] at h1
  exact List.append_cancel_left (h1.trans h2.symm)

theorem boundary_le_length {α : Type} (p : α → Bool) (l : List α) :
    (l.takeWhile p).length ≤ l.length := by
  have htp : l.takeWhile p <+: l := List.takeWhile_prefix p
  exact htp.sublist.length_le

theorem pred_of_lt_boundary {α : Type} (p : α → Bool) (l : List α) (i : Nat)
    (hb : i < (l.takeWhile p).length) (hl : i < l.length) :
    p (l.get ⟨i, hl⟩) = true := by
  have hmem : l.get ⟨i, hl⟩ ∈ l.takeWhile p := by
    rw [takeWhile_eq_take_boundary p l]
    have : (l.take (l.takeWhile p).length).get
        ⟨i, by simpa [List.length_take] using lt_min hb hl⟩ = l.get ⟨i, hl⟩ :=
      List.get_take' l
    rw [← this]
    exact List.get_mem _ _ _
  exact List.mem_takeWhile_imp hmem

theorem not_pred_at_boundary {α : Type} (p : α → Bool) (l : List α)
    (hb : (l.takeWhile p).length < l.length) :
    ¬ p (l.get ⟨(l.takeWhile p).length, hb⟩) = true := by
  set b := (l.takeWhile p).length with hbdef
  have hdw : l.dropWhile p = l.drop b := dropWhile_eq_drop_boundary p l
  have hne : l.dropWhile p ≠ [] := by
    rw [hdw]
    intro h
    have := congrArg List.length h
    simp [List.length_drop] at this
    omega
  have hhead := List.head_dropWhile_not p l hne
  have e1 : (l.dropWhile p).head hne
      = (l.dropWhile p).get ⟨0, List.length_pos.mpr hne⟩ :=
    Eq.symm (List.get_mk_zero (List.length_pos.mpr hne))
  have e2 : (l.dropWhile p).get ⟨0, List.length_pos.mpr hne⟩ = l.get ⟨b, hb⟩ := by
    rw [List.get_of_eq hdw]
    have h3 := List.get_drop l (show b + 0 < l.length by omega)
    simpa using h3.symm
  rw [e1, e2] at hhead
  simp only [Bool.not_eq_true]
  exact hhead

theorem le_boundary_of_pred {α : Type} (p : α → Bool) (l : List α) (k : Nat)
    (hk : k ≤ l.length) (h : ∀ i (hi : i < l.length), i < k → p (l.get ⟨i, hi⟩) = true) :
    k ≤ (l.takeWhile p).length := by
  by_contra hlt
  push_neg at hlt
  have hb : (l.takeWhile p).length < l.length := lt_of_lt_of_le hlt hk
  exact not_pred_at_boundary p l hb (h _ hb hlt)

theorem boundary_le_of_not_pred {α : Type} (p : α → Bool) (l : List α) (j : Nat)
    (hj : j < l.length) (h : ¬ p (l.get ⟨j, hj⟩) = true) :
    (l.takeWhile p).length ≤ j := by
  by_contra hlt
  push_neg at hlt
  exact h (pred_of_lt_boundary p l j hlt hj)

/-- Sorted-descending lists have pointwise non-increasing sizes. -/
theorem sorted_size_le {l : List FileInfo} (h : SizeSortedDesc l) {i j : Nat}
    (hij : i ≤ j) (hj : j < l.length) :
    (l.get ⟨j, hj⟩).size ≤ (l.get ⟨i, lt_of_le_of_lt hij hj⟩).size := by
  rcases lt_or_eq_of_le hij with hlt | rfl
  · exact (List.pairwise_iff_get.mp h) ⟨i, lt_of_le_of_lt hij hj⟩ ⟨j, hj⟩ hlt
  · rfl

/-! ### insertAfterGe theory -/

theorem insertAfterGe_nil (x : FileInfo) : insertAfterGe x [] = [x] := rfl

theorem insertAfterGe_cons (x y : FileInfo) (ys : List FileInfo) :
    insertAfterGe x (y :: ys)
      = if x.size ≤ y.size then y :: insertAfterGe x ys else x :: y :: ys := by
  by_cases h : x.size ≤ y.size <;>
    simp [insertAfterGe, List.takeWhile, List.dropWhile, h]

theorem insertAfterGe_length (x : FileInfo) (l : List FileInfo) :
    (insertAfterGe x l).length = l.length + 1 := by
  induction l with
  | nil => rfl
  | cons y ys ih =>
      rw [insertAfterGe_cons]
      by_cases h : x.size ≤ y.size <;> simp [h, ih]

theorem mem_insertAfterGe {x a : FileInfo} {l : List FileInfo} :
    a ∈ insertAfterGe x l ↔ a = x ∨ a ∈ l := by
  induction l with
  | nil => simp [insertAfterGe_nil]
  | cons y ys ih =>
      rw [insertAfterGe_cons]
      by_cases h : x.size ≤ y.size
      · rw [if_pos h]
        simp only [List.mem_cons, ih]
        try tauto
      · rw [if_neg h]
        simp only [List.mem_cons]
        try tauto

theorem insertAfterGe_sorted {x : FileInfo} {l : List FileInfo}
    (h : SizeSortedDesc l) : SizeSortedDesc (insertAfterGe x l) := by
  induction l with
  | nil =>
      rw [insertAfterGe_nil]
      exact List.pairwise_singleton _ _
  | cons y ys ih =>
      rw [insertAfterGe_cons]
      unfold SizeSortedDesc at h
      rw [List.pairwise_cons] at h
      by_cases hxy : x.size ≤ y.size
      · rw [if_pos hxy]
        refine List.pairwise_cons.mpr ⟨?_, ih h.2⟩
        intro b hb
        rcases mem_insertAfterGe.mp hb with rfl | hb
        · exact hxy
        · exact h.1 b hb
      · rw [if_neg hxy]
        push_neg at hxy
        refine List.pairwise_cons.mpr ⟨?_, List.pairwise_cons.mpr h⟩
        intro b hb
        rcases List.mem_cons.mp hb with rfl | hb
        · exact le_of_lt hxy
        · exact le_trans (h.1 b hb) (le_of_lt hxy)

theorem stableSortDesc_aux_sorted (l : List FileInfo) :
    ∀ acc, SizeSortedDesc acc →
      SizeSortedDesc (l.foldl (fun acc x => insertAfterGe x acc) acc) := by
  induction l with
  | nil => intro acc h; simpa using h
  | cons y ys ih =>
      intro acc h
      simpa using ih (insertAfterGe y acc) (insertAfterGe_sorted h)

theorem stableSortDesc_sorted (l : List FileInfo) :
    SizeSortedDesc (stableSortDesc l) :=
  stableSortDesc_aux_sorted l [] (List.Pairwise.nil)

theorem stableSortDesc_aux_length (l : List FileInfo) :
    ∀ acc, (l.foldl (fun acc x => insertAfterGe x acc) acc).length
      = acc.length + l.length := by
  induction l with
  | nil => intro acc; simp
  | cons y ys ih =>
      intro acc
      simp only [List.foldl_cons]
      rw [ih]
      rw [insertAfterGe_length]
      simp only [List.length_cons]
      omega

theorem stableSortDesc_length (l : List FileInfo) :
    (stableSortDesc l).length = l.length := by
  unfold stableSortDesc
  rw [stableSortDesc_aux_length]
  simp

theorem stableSortDesc_append_singleton (l : List FileInfo) (x : FileInfo) :
    stableSortDesc (l ++ [x]) = insertAfterGe x (stableSortDesc l) := by
  unfold stableSortDesc
  rw [List.foldl_append]
  rfl

theorem sizeAt_eq_get (t : List FileInfo) (m : Int) (h0 : 0 ≤ m)
    (hlt : m.toNat < t.length) :
    sizeAt t m = (t.get ⟨m.toNat, hlt⟩).size := by
  simp [sizeAt, List.getElem?_eq_getElem hlt]

/-- The binary search of `_insert_sorted` returns the boundary index of a
sorted-descending list: everything strictly left of the result has size
`≥ sz`, everything at or right of it has size `< sz`. -/
theorem bsearchLoop_spec (t : List FileInfo) (sz : Int) (hsort : SizeSortedDesc t) :
    ∀ (fuel : Nat) (low high : Int), (high + 1 - low).toNat ≤ fuel →
      0 ≤ low → low ≤ high + 1 → high < (t.length : Int) →
      (∀ i : Fin t.length, ((i : Nat) : Int) < low → sz ≤ (t.get i).size) →
      (∀ j : Fin t.length, high < ((j : Nat) : Int) → (t.get j).size < sz) →
      0 ≤ bsearchLoop t sz low high ∧ bsearchLoop t sz low high ≤ (t.length : Int)
        ∧ (∀ i : Fin t.length,
            ((i : Nat) : Int) < bsearchLoop t sz low high → sz ≤ (t.get i).size)
        ∧ (∀ j : Fin t.length,
            bsearchLoop t sz low high ≤ ((j : Nat) : Int) → (t.get j).size < sz) := by
  intro fuel
  induction fuel with
  | zero =>
      intro low high hfuel h0 hlh hhi hA hB
      rw [bsearchLoop, if_neg (by omega : ¬ low ≤ high)]
      refine ⟨h0, by omega, hA, ?_⟩
      intro j hj
      exact hB j (by omega)
  | succ fuel ih =>
      intro low high hfuel h0 hlh hhi hA hB
      by_cases hcond : low ≤ high
      · rw [bsearchLoop, if_pos hcond]
        simp only []
        have h1 := Int.fdiv_add_fmod (low + high) 2
        have h2 : 0 ≤ (low + high).fmod 2 := Int.fmod_nonneg' _ (by norm_num)
        have h3 : (low + high).fmod 2 < 2 := Int.fmod_lt_of_pos _ (by norm_num)
        have hml : low ≤ (low + high).fdiv 2 := by omega
        have hmh : (low + high).fdiv 2 ≤ high := by omega
        have hmidlt : ((low + high).fdiv 2).toNat < t.length := by omega
        have hsz := sizeAt_eq_get t ((low + high).fdiv 2) (by omega) hmidlt
        by_cases hc : sizeAt t ((low + high).fdiv 2) < sz
        · rw [if_pos hc]
          refine ih low ((low + high).fdiv 2 - 1) (by omega) h0 (by omega)
            (by omega) hA ?_
          intro j hj
          by_cases hjh : high < ((j : Nat) : Int)
          · exact hB j hjh
          · have hjm : ((low + high).fdiv 2).toNat ≤ (j : Nat) := by omega
            rw [hsz] at hc
            exact lt_of_le_of_lt (sorted_size_le hsort hjm j.isLt) hc
        · rw [if_neg hc]
          push_neg at hc
          refine ih ((low + high).fdiv 2 + 1) high (by omega) (by omega)
            (by omega) hhi ?_ hB
          intro i hi
          by_cases hil : ((i : Nat) : Int) < low
          · exact hA i hil
          · have him : (i : Nat) ≤ ((low + high).fdiv 2).toNat := by omega
            rw [hsz] at hc
            exact le_trans hc (sorted_size_le hsort him hmidlt)
      · rw [bsearchLoop, if_neg hcond]
        refine ⟨h0, by omega, hA, ?_⟩
        intro j hj
        exact hB j (by omega)

/-- Trimming a list of at most `K + 1` elements to capacity `K` is
truncation: Python's single `items.pop()` after one insertion. -/
theorem trimTail_take (l : List FileInfo) (K : Nat) (h : l.length ≤ K + 1) :
    trimTail l (some K) = l.take K := by
  have hdef : trimTail l (some K) = if l.length > K then l.dropLast else l := rfl
  rw [hdef]
  by_cases hl : l.length > K
  · rw [if_pos hl]
    rw [List.dropLast_eq_take]
    congr 1
    omega
  · rw [if_neg hl]
    rw [List.take_all_of_le (by omega)]

theorem insertIdx_eq_take_cons_drop {α : Type} (x : α) :
    ∀ (n : Nat) (l : List α), n ≤ l.length →
      l.insertIdx n x = l.take n ++ x :: l.drop n := by
  intro n
  induction n with
  | zero => intro l _; simp [List.insertIdx]
  | succ n ih =>
      intro l hl
      cases l with
      | nil => simp at hl
      | cons a l =>
          simp only [List.insertIdx_succ_cons, List.take, List.drop]
          rw [ih l (by simpa using hl)]
          simp

theorem takeWhile_take {α : Type} (p : α → Bool) :
    ∀ (l : List α) (m : Nat), (l.take m).takeWhile p = (l.takeWhile p).take m := by
  intro l
  induction l with
  | nil => intro m; simp
  | cons a l ih =>
      intro m
      cases m with
      | zero => simp
      | succ m =>
          by_cases h : p a
          · simp only [List.take, List.takeWhile_cons_of_pos h, ih]
          · simp only [List.take, List.takeWhile_cons_of_neg h, List.take_nil]

/-- In a sorted-descending list, the last element is minimal. -/
theorem sorted_getLast_min {l : List FileInfo} (hsort : SizeSortedDesc l)
    (h : l ≠ []) : ∀ a ∈ l, (l.getLast h).size ≤ a.size := by
  intro a ha
  obtain ⟨i, hi⟩ := List.mem_iff_get.mp ha
  rw [List.getLast_eq_get l h]
  rw [← hi]
  exact sorted_size_le hsort (by omega) _

/-- The `insertCore` inserts exactly at the stable boundary — after every
element of size `≥ item.size` — and truncates to capacity. -/
theorem insertCore_boundary (K : Nat) (hK : 1 ≤ K) (x : FileInfo)
    (t : List FileInfo) (hsort : SizeSortedDesc t) (hlen : t.length ≤ K) :
    insertCore t x (some K)
      = (t.take (t.takeWhile (fun y => x.size ≤ y.size)).length
          ++ x :: t.drop (t.takeWhile (fun y => x.size ≤ y.size)).length).take K := by
  cases t with
  | nil =>
      have hdef : insertCore [] x (some K) = trimTail [x] (some K) := rfl
      rw [hdef, trimTail_take _ _ (by simp)]
      simp
  | cons first rest =>
      have hne : (first :: rest : List FileInfo) ≠ [] := by simp
      have hlpos : 0 < (first :: rest : List FileInfo).length := by simp
      have hlen' : rest.length + 1 ≤ K := by simpa using hlen
      by_cases hx1 : x.size ≤ ((first :: rest).getLast hne).size
      · -- append branch: everything satisfies the boundary predicate
        have hdef : insertCore (first :: rest) x (some K)
            = trimTail ((first :: rest) ++ [x]) (some K) := by
          simp only [insertCore]
          rw [if_pos hx1]
        rw [hdef, trimTail_take _ _ (by simp; omega)]
        have hall : (first :: rest).takeWhile (fun y => decide (x.size ≤ y.size))
            = first :: rest := by
          rw [List.takeWhile_eq_self_iff]
          intro a ha
          simp only [decide_eq_true_eq]
          exact le_trans hx1 (sorted_getLast_min hsort hne a ha)
        rw [hall]
        rw [List.take_length, List.drop_length]
      · by_cases hx2 : x.size > first.size
        · -- prepend branch: boundary 0
          have hdef : insertCore (first :: rest) x (some K)
              = trimTail (x :: first :: rest) (some K) := by
            simp only [insertCore]
            rw [if_neg hx1, if_pos hx2]
          rw [hdef, trimTail_take _ _ (by simp; omega)]
          have h0 : (first :: rest).takeWhile (fun y => decide (x.size ≤ y.size))
              = [] := by
            rw [List.takeWhile_cons_of_neg]
            simp only [decide_eq_true_eq]
            omega
          rw [h0]
          simp
        · -- binary-search branch
          push_neg at hx1 hx2
          have hsrt := hsort
          have hspec := bsearchLoop_spec (first :: rest) x.size hsort
            (first :: rest).length 0 (((first :: rest).length : Int) - 1)
            (by omega) (by omega) (by omega) (by omega)
            (by intro i hi; omega)
            (by intro j hj; exact absurd j.isLt (by omega))
          obtain ⟨hr0, hrlen, hA, hB⟩ := hspec
          set r := bsearchLoop (first :: rest) x.size 0
            (((first :: rest).length : Int) - 1) with hrdef
          have hlast : ((first :: rest).getLast hne).size
              = ((first :: rest).get ⟨(first :: rest).length - 1, by omega⟩).size := by
            rw [List.getLast_eq_get]
          have hrlt : r.toNat < (first :: rest).length := by
            by_contra hge
            push_neg at hge
            have hidx : (((first :: rest).length - 1 : Nat) : Int) < r := by omega
            have := hA ⟨(first :: rest).length - 1, by omega⟩
              (by simp only [Fin.val_mk]; omega)
            rw [← hlast] at this
            omega
          have hb1 : r.toNat
              ≤ ((first :: rest).takeWhile (fun y => decide (x.size ≤ y.size))).length := by
            refine le_boundary_of_pred _ _ _ (by omega) ?_
            intro i hi hilt
            simp only [decide_eq_true_eq]
            exact hA ⟨i, hi⟩ (by simp only [Fin.val_mk]; omega)
          have hb2 : ((first :: rest).takeWhile (fun y => decide (x.size ≤ y.size))).length
              ≤ r.toNat := by
            refine boundary_le_of_not_pred _ _ _ hrlt ?_
            simp only [decide_eq_true_eq, not_le]
            exact hB ⟨r.toNat, hrlt⟩ (by simp only [Fin.val_mk]; omega)
          have hbr : ((first :: rest).takeWhile (fun y => decide (x.size ≤ y.size))).length
              = r.toNat := le_antisymm hb2 hb1
          have hdef : insertCore (first :: rest) x (some K)
              = trimTail (List.insertIdx r.toNat x (first :: rest)) (some K) := by
            simp only [insertCore]
            rw [if_neg (by omega), if_neg (by omega)]
          rw [hdef]
          rw [insertIdx_eq_take_cons_drop x r.toNat (first :: rest) (by omega)]
          rw [trimTail_take _ _ (by simp [List.length_take, List.length_drop]; omega)]
          rw [hbr]

theorem take_insert_take (s : List FileInfo) (x : FileInfo) (b K : Nat)
    (hbK : b < K) (hbn : b ≤ s.length) :
    (s.take b ++ x :: (s.drop b).take (K - b)).take K
      = (s.take b ++ x :: s.drop b).take K := by
  simp only [List.take_append_eq_append_take, List.take_take, List.length_take]
  have hm1 : min K b = b := by omega
  have hm2 : min b s.length = b := by omega
  rw [hm1, hm2]
  congr 1
  have hK1 : K - b = (K - b - 1) + 1 := by omega
  rw [hK1]
  rw [List.take_succ_cons, List.take_succ_cons, List.take_take]
  have hm3 : min (K - b - 1) (K - b - 1 + 1) = K - b - 1 := by omega
  rw [hm3]

/-- One `_insert_sorted` call on the held Top-K list of a sorted pool `s`
equals stable insertion into the pool followed by truncation to `K`. -/
theorem insert_sorted_take_eq (K : Nat) (hK : 1 ≤ K) (x : FileInfo)
    (s : List FileInfo) (hsort : SizeSortedDesc s) :
    insert_sorted (s.take K) x (some K) = some ((insertAfterGe x s).take K) := by
  have hins : insertAfterGe x s
      = s.take (s.takeWhile (fun y => x.size ≤ y.size)).length
        ++ x :: s.drop (s.takeWhile (fun y => x.size ≤ y.size)).length := by
    unfold insertAfterGe
    conv_lhs => rw [takeWhile_eq_take_boundary, dropWhile_eq_drop_boundary]
  have hble := boundary_le_length (fun y => decide (x.size ≤ y.size)) s
  have hsorted_t : SizeSortedDesc (s.take K) := hsort.sublist (List.take_sublist K s)
  by_cases hn : K ≤ s.length
  · have htlen : (s.take K).length = K := by
      simp [List.length_take]
      omega
    have htne : s.take K ≠ [] := by
      intro h
      have := congrArg List.length h
      rw [htlen] at this
      simp at this
      omega
    have hlast_eq : (s.take K).getLast htne
        = s.get ⟨K - 1, by omega⟩ := by
      rw [List.getLast_eq_get]
      have := @List.get_take' _ s K ⟨(s.take K).length - 1, by omega⟩
      rw [this]
      congr 1
      simp [htlen]
    have hdef : insert_sorted (s.take K) x (some K)
        = if (s.take K).length ≥ K then
            match (s.take K).getLast? with
            | none => none
            | some lastI =>
                if x.size ≤ lastI.size then some (s.take K)
                else some (insertCore (s.take K) x (some K))
          else some (insertCore (s.take K) x (some K)) := rfl
    rw [hdef, if_pos (by omega)]
    rw [List.getLast?_eq_getLast _ htne]
    simp only []
    by_cases hx1 : x.size ≤ ((s.take K).getLast htne).size
    · rw [if_pos hx1]
      have hKb : K ≤ (s.takeWhile (fun y => x.size ≤ y.size)).length := by
        refine le_boundary_of_pred _ _ K hn ?_
        intro i hi hiK
        simp only [decide_eq_true_eq]
        rw [hlast_eq] at hx1
        exact le_trans hx1
          (sorted_size_le hsort (show i ≤ K - 1 by omega)
            (show K - 1 < s.length by omega))
      rw [hins]
      rw [List.take_append_of_le_length
        (by simp only [List.length_take]; omega)]
      rw [List.take_take, min_eq_left (by omega)]
    · rw [if_neg hx1]
      push_neg at hx1
      rw [hlast_eq] at hx1
      congr 1
      rw [insertCore_boundary K hK x (s.take K) hsorted_t (by omega)]
      have hbK : (s.takeWhile (fun y => x.size ≤ y.size)).length ≤ K - 1 := by
        refine boundary_le_of_not_pred _ _ (K - 1) (by omega) ?_
        simp only [decide_eq_true_eq, not_le]
        exact hx1
      have htwt : ((s.take K).takeWhile (fun y => x.size ≤ y.size)).length
          = (s.takeWhile (fun y => x.size ≤ y.size)).length := by
        rw [takeWhile_take]
        simp only [List.length_take]
        omega
      rw [htwt]
      rw [List.take_take, min_eq_left (by omega)]
      rw [List.drop_take]
      rw [take_insert_take s x _ K (by omega) (by omega)]
      rw [hins]
  · push_neg at hn
    have hts : s.take K = s := List.take_all_of_le (by omega)
    rw [hts]
    have hdef2 : insert_sorted s x (some K) = some (insertCore s x (some K)) := by
      have hd : insert_sorted s x (some K)
          = if s.length ≥ K then
              match s.getLast? with
              | none => none
              | some lastI =>
                  if x.size ≤ lastI.size then some s
                  else some (insertCore s x (some K))
            else some (insertCore s x (some K)) := rfl
      rw [hd, if_neg (by omega)]
    rw [hdef2]
    rw [insertCore_boundary K hK x s hsort (by omega)]
    rw [hins]

theorem topKFold_append (K : Nat) (xs : List FileInfo) (x : FileInfo) :
    topKFold K (xs ++ [x])
      = (topKFold K xs).bind (fun acc => insert_sorted acc x (some K)) := by
  unfold topKFold
  rw [List.foldlM_append]
  simp

/-- Repeated `_insert_sorted` insertion with capacity `K ≥ 1` computes
exactly the first `K` elements of the stable descending sort of the
inputs. -/
theorem topKFold_eq (K : Nat) (hK : 1 ≤ K) (xs : List FileInfo) :
    topKFold K xs = some ((stableSortDesc xs).take K) := by
  induction xs using List.reverseRecOn with
  | nil => simp [topKFold, stableSortDesc]
  | append_singleton l a ih =>
      rw [topKFold_append, ih]
      rw [stableSortDesc_append_singleton]
      exact insert_sorted_take_eq K hK a (stableSortDesc l) (stableSortDesc_sorted l)

/-- C2: for every capacity `K ≥ 1` and input sequence, after each prefix
of insertions the Top-K list `_insert_sorted` maintains is exactly the
first `K` elements of the stable descending sort of the items seen so far
(so ties stay in first-insertion order, since `insertAfterGe` places each
new element after its earlier-arrived equals), its length is
`min(K, N)`, and it is sorted descending by size. -/
theorem C2_topk_stable (K : Nat) (hK : 1 ≤ K) (xs : List FileInfo) (n : Nat) :
    topKFold K (xs.take n) = some ((stableSortDesc (xs.take n)).take K)
      ∧ ((stableSortDesc (xs.take n)).take K).length = min K (xs.take n).length
      ∧ SizeSortedDesc ((stableSortDesc (xs.take n)).take K) := by
  refine ⟨topKFold_eq K hK (xs.take n), ?_, ?_⟩
  · simp [List.length_take, stableSortDesc_length]
  · exact (stableSortDesc_sorted (xs.take n)).sublist (List.take_sublist _ _)

/-- Witness for C2 at `K = 2` over three concrete items with a size tie. -/
theorem C2_topk_stable_witness :
    1 ≤ 2
      ∧ (topKFold 2
            (([⟨["a"], 5, false⟩, ⟨["b"], 3, false⟩, ⟨["c"], 5, false⟩] :
              List FileInfo).take 3)
          = some ((stableSortDesc
              (([⟨["a"], 5, false⟩, ⟨["b"], 3, false⟩, ⟨["c"], 5, false⟩] :
                List FileInfo).take 3)).take 2)
        ∧ ((stableSortDesc
              (([⟨["a"], 5, false⟩, ⟨["b"], 3, false⟩, ⟨["c"], 5, false⟩] :
                List FileInfo).take 3)).take 2).length
            = min 2 (([⟨["a"], 5, false⟩, ⟨["b"], 3, false⟩, ⟨["c"], 5, false⟩] :
                List FileInfo).take 3).length
        ∧ SizeSortedDesc ((stableSortDesc
              (([⟨["a"], 5, false⟩, ⟨["b"], 3, false⟩, ⟨["c"], 5, false⟩] :
                List FileInfo).take 3)).take 2)) :=
  ⟨by decide,
   C2_topk_stable 2 (by decide)
     [⟨["a"], 5, false⟩, ⟨["b"], 3, false⟩, ⟨["c"], 5, false⟩] 3⟩

/-- With capacity at least 1, `_insert_sorted` never raises. -/
theorem insert_sorted_isSome (items : List FileInfo) (x : FileInfo) (k : Nat)
    (hk : 1 ≤ k) : ∃ l, insert_sorted items x (some k) = some l := by
  cases items with
  | nil =>
      have hdef : insert_sorted [] x (some k)
          = if (0 : Nat) ≥ k then
              match ([] : List FileInfo).getLast? with
              | none => none
              | some lastI =>
                  if x.size ≤ lastI.size then some []
                  else some (insertCore [] x (some k))
            else some (insertCore [] x (some k)) := rfl
      rw [hdef, if_neg (by omega)]
      exact ⟨_, rfl⟩
  | cons a l =>
      have hne : (a :: l : List FileInfo) ≠ [] := by simp
      have hdef : insert_sorted (a :: l) x (some k)
          = if (a :: l).length ≥ k then
              match (a :: l).getLast? with
              | none => none
              | some lastI =>
                  if x.size ≤ lastI.size then some (a :: l)
                  else some (insertCore (a :: l) x (some k))
            else some (insertCore (a :: l) x (some k)) := rfl
      rw [hdef]
      by_cases hlen : (a :: l).length ≥ k
      · rw [if_pos hlen, List.getLast?_eq_getLast _ hne]
        simp only []
        by_cases hx : x.size ≤ ((a :: l).getLast hne).size
        · rw [if_pos hx]; exact ⟨_, rfl⟩
        · rw [if_neg hx]; exact ⟨_, rfl⟩
      · rw [if_neg hlen]; exact ⟨_, rfl⟩

theorem progressEstimate_mono {a b : Nat} (h : a ≤ b) :
    progressEstimate a ≤ progressEstimate b := by
  unfold progressEstimate
  refine min_le_min le_rfl ?_
  have ha : (0:ℚ) < (a:ℚ) + 1000 := by positivity
  have hb : (0:ℚ) < (b:ℚ) + 1000 := by positivity
  rw [div_le_div_iff ha hb]
  have hab : (a:ℚ) ≤ (b:ℚ) := by exact_mod_cast h
  nlinarith

theorem progressEstimate_lt_one (c : Nat) : progressEstimate c < 1 := by
  unfold progressEstimate
  refine lt_of_le_of_lt (min_le_left _ _) ?_
  norm_num

/-- One file event of the `scan_async` loop always succeeds when
`max_files ≥ 1`, increments the scanned count, and either emits nothing
or appends one snapshot carrying the current count and its saturating
estimate. -/
theorem scan_async_step_cases (opts : ScanOptions) (hK : 1 ≤ opts.max_files)
    (fsIsDir : FPath → Bool) (times : Nat → ℚ) (rootPath : FPath)
    (st : AsyncState) (p : FPath) (s : Int) :
    ∃ st', scan_async_step opts fsIsDir times rootPath st (p, true, s) = some st'
      ∧ st'.count = st.count + 1
      ∧ (st'.emitted = st.emitted
          ∨ ∃ snap, st'.emitted = st.emitted ++ [snap]
              ∧ snap.scanned = st.count + 1
              ∧ snap.progress = progressEstimate (st.count + 1)) := by
  obtain ⟨l, hl⟩ : ∃ l,
      (if insertGuard st.largestFiles opts.max_files s then
          insert_sorted st.largestFiles
            ⟨p, s, is_icloud_path opts.icloud_base p⟩ (some opts.max_files)
        else some st.largestFiles) = some l := by
    by_cases hg : insertGuard st.largestFiles opts.max_files s
    · rw [if_pos hg]
      exact insert_sorted_isSome _ _ _ hK
    · rw [if_neg hg]
      exact ⟨_, rfl⟩
  have hdef : scan_async_step opts fsIsDir times rootPath st (p, true, s)
      = ((if insertGuard st.largestFiles opts.max_files s then
            insert_sorted st.largestFiles
              ⟨p, s, is_icloud_path opts.icloud_base p⟩ (some opts.max_files)
          else some st.largestFiles).map
          (fun largestFiles =>
            if st.chunkLen + 1 ≥ 250 then
              if times st.timeIdx - st.lastCalc ≥ dirCalcInterval (st.count + 1) then
                { st with
                    dirSizes := update_dir_sizes st.dirSizes p s
                      (is_icloud_path opts.icloud_base p)
                    total := st.total + s, count := st.count + 1, largestFiles
                    largestDirs := get_largest_dirs fsIsDir
                      (update_dir_sizes st.dirSizes p s
                        (is_icloud_path opts.icloud_base p)) rootPath opts.max_dirs
                    chunkLen := 0, lastCalc := times st.timeIdx
                    timeIdx := st.timeIdx + 1
                    emitted := st.emitted ++
                      [{ progress := progressEstimate (st.count + 1)
                         files := largestFiles.take opts.max_files
                         dirs := (get_largest_dirs fsIsDir
                            (update_dir_sizes st.dirSizes p s
                              (is_icloud_path opts.icloud_base p)) rootPath
                            opts.max_dirs).take opts.max_dirs
                         scanned := st.count + 1
                         total_size := st.total + s }] }
              else
                { st with
                    dirSizes := update_dir_sizes st.dirSizes p s
                      (is_icloud_path opts.icloud_base p)
                    total := st.total + s, count := st.count + 1, largestFiles
                    chunkLen := 0, timeIdx := st.timeIdx + 1 }
            else
              { st with
                  dirSizes := update_dir_sizes st.dirSizes p s
                    (is_icloud_path opts.icloud_base p)
                  total := st.total + s, count := st.count + 1, largestFiles
                  chunkLen := st.chunkLen + 1 })) := rfl
  rw [hdef, hl]
  rw [Option.map_some']
  by_cases h1 : st.chunkLen + 1 ≥ 250
  · rw [if_pos h1]
    by_cases h2 : times st.timeIdx - st.lastCalc ≥ dirCalcInterval (st.count + 1)
    · rw [if_pos h2]
      refine ⟨_, rfl, rfl, Or.inr ⟨_, rfl, rfl, rfl⟩⟩
    · rw [if_neg h2]
      exact ⟨_, rfl, rfl, Or.inl rfl⟩
  · rw [if_neg h1]
    exact ⟨_, rfl, rfl, Or.inl rfl⟩

/-- Running the `scan_async` loop preserves the emission invariant: every
snapshot carries the count at its emission time together with the
saturating estimate of that count, and snapshots are mutually ordered. -/
theorem scan_async_run_inv (opts : ScanOptions) (hK : 1 ≤ opts.max_files)
    (fsIsDir : FPath → Bool) (times : Nat → ℚ) (rootPath : FPath)
    (events : List ScanEvent) :
    ∀ st : AsyncState,
      (∀ q ∈ st.emitted, q.scanned ≤ st.count
          ∧ q.progress = progressEstimate q.scanned) →
      st.emitted.Pairwise (fun a b => a.scanned ≤ b.scanned ∧ a.progress ≤ b.progress) →
      ∃ st', events.foldlM (scan_async_step opts fsIsDir times rootPath) st = some st'
        ∧ (∀ q ∈ st'.emitted, q.scanned ≤ st'.count
            ∧ q.progress = progressEstimate q.scanned)
        ∧ st'.emitted.Pairwise
            (fun a b => a.scanned ≤ b.scanned ∧ a.progress ≤ b.progress) := by
  induction events with
  | nil =>
      intro st h1 h2
      exact ⟨st, rfl, h1, h2⟩
  | cons ev evs ih =>
      intro st h1 h2
      obtain ⟨p, isF, s⟩ := ev
      cases isF
      · have hstep : scan_async_step opts fsIsDir times rootPath st (p, false, s)
            = some st := rfl
        obtain ⟨st', hrun, hi1, hi2⟩ := ih st h1 h2
        refine ⟨st', ?_, hi1, hi2⟩
        simp [List.foldlM_cons, hstep, hrun]
      · obtain ⟨st1, hstep, hcount, hem⟩ :=
          scan_async_step_cases opts hK fsIsDir times rootPath st p s
        have h1' : ∀ q ∈ st1.emitted, q.scanned ≤ st1.count
            ∧ q.progress = progressEstimate q.scanned := by
          rcases hem with he | ⟨snap, he, hs1, hs2⟩
          · rw [he, hcount]
            intro q hq
            obtain ⟨hq1, hq2⟩ := h1 q hq
            exact ⟨by omega, hq2⟩
          · rw [he, hcount]
            intro q hq
            rcases List.mem_append.mp hq with hq | hq
            · obtain ⟨hq1, hq2⟩ := h1 q hq
              exact ⟨by omega, hq2⟩
            · rw [List.mem_singleton] at hq
              subst hq
              exact ⟨by omega, by rw [hs2, hs1]⟩
        have h2' : st1.emitted.Pairwise
            (fun a b => a.scanned ≤ b.scanned ∧ a.progress ≤ b.progress) := by
          rcases hem with he | ⟨snap, he, hs1, hs2⟩
          · rw [he]
            exact h2
          · rw [he]
            refine List.pairwise_append.mpr ⟨h2, List.pairwise_singleton _ _, ?_⟩
            intro a ha b hb
            rw [List.mem_singleton] at hb
            subst hb
            obtain ⟨ha1, ha2⟩ := h1 a ha
            refine ⟨by rw [hs1]; omega, ?_⟩
            rw [hs2, ha2]
            exact progressEstimate_mono (by omega)
        obtain ⟨st', hrun, hi1, hi2⟩ := ih st1 h1' h2'
        refine ⟨st', ?_, hi1, hi2⟩
        simp [List.foldlM_cons, hstep, hrun]

/-- C5: across the `ScanProgress` snapshots `scan_async` emits (over any
finite walker event sequence, any clock readings, and any options with
`max_files ≥ 1`), `files_scanned` and the progress fraction are
non-decreasing; every snapshot before the terminal one has fraction
strictly below `1.0` (they are capped at `0.95`); and the terminal
snapshot always exists and has fraction exactly `1.0`. -/
theorem C5_progress_monotone (opts : ScanOptions) (hK : 1 ≤ opts.max_files)
    (fsIsDir : FPath → Bool) (times : Nat → ℚ) (rootPath : FPath)
    (events : List ScanEvent) :
    ∃ ps, scan_async_emissions opts fsIsDir times rootPath events = some ps
      ∧ ps ≠ []
      ∧ ps.Pairwise (fun a b => a.scanned ≤ b.scanned ∧ a.progress ≤ b.progress)
      ∧ (∀ q ∈ ps.dropLast, q.progress < 1)
      ∧ ∃ last, ps.getLast? = some last ∧ last.progress = 1 := by
  obtain ⟨st', hrun, h1, h2⟩ :=
    scan_async_run_inv opts hK fsIsDir times rootPath events asyncInit
      (by simp [asyncInit]) (by simp [asyncInit])
  have hrun' : scan_async_run opts fsIsDir times rootPath events = some st' := hrun
  refine ⟨st'.emitted ++
      [{ progress := 1
         files := st'.largestFiles.take opts.max_files
         dirs := (get_largest_dirs fsIsDir st'.dirSizes rootPath
            opts.max_dirs).take opts.max_dirs
         scanned := st'.count
         total_size := st'.total }], ?_, by simp, ?_, ?_, ?_⟩
  · unfold scan_async_emissions
    rw [hrun']
    rfl
  · refine List.pairwise_append.mpr ⟨h2, List.pairwise_singleton _ _, ?_⟩
    intro a ha b hb
    rw [List.mem_singleton] at hb
    subst hb
    obtain ⟨ha1, ha2⟩ := h1 a ha
    refine ⟨by simpa using ha1, ?_⟩
    rw [ha2]
    simp only []
    exact le_of_lt (progressEstimate_lt_one _)
  · rw [List.dropLast_concat]
    intro q hq
    rw [(h1 q hq).2]
    exact progressEstimate_lt_one _
  · rw [List.getLast?_concat]
    exact ⟨_, rfl, rfl⟩

/-- Witness for C5: default options, one concrete file event, constant
clock. -/
theorem C5_progress_monotone_witness :
    1 ≤ ({} : ScanOptions).max_files
      ∧ ∃ ps, scan_async_emissions {} (fun _ => true) (fun _ => 0)
            (["r"] : FPath) [((["r", "a"] : FPath), true, (5:Int))] = some ps
          ∧ ps ≠ []
          ∧ ps.Pairwise (fun a b => a.scanned ≤ b.scanned ∧ a.progress ≤ b.progress)
          ∧ (∀ q ∈ ps.dropLast, q.progress < 1)
          ∧ ∃ last, ps.getLast? = some last ∧ last.progress = 1 :=
  ⟨by decide,
   C5_progress_monotone {} (by decide) (fun _ => true) (fun _ => 0) ["r"]
     [((["r", "a"] : FPath), true, (5:Int))]⟩

/-- C10: after any hide operation every displayed directory size stays
non-negative — `max(0, size - hidden_size)` clamps at zero — and an
ancestor whose recorded size is at most the hidden size is displayed as
exactly zero rather than negative. -/
theorem C10_hide_clamps_nonneg (dirs : List UIFileInfo) (hp : FPath) (hs : Int)
    (hnn : ∀ di ∈ dirs, 0 ≤ di.size) :
    (∀ di' ∈ update_parent_sizes_on_hide dirs hp hs, 0 ≤ di'.size)
      ∧ ∀ di ∈ dirs, hp ≠ di.path → is_relative_to hp di.path → di.size ≤ hs →
          { di with size := 0 } ∈ update_parent_sizes_on_hide dirs hp hs := by
  constructor
  · intro di' hdi'
    unfold update_parent_sizes_on_hide at hdi'
    obtain ⟨di, hdi, heq⟩ := List.mem_map.mp hdi'
    by_cases h : hp ≠ di.path ∧ is_relative_to hp di.path
    · rw [if_pos h] at heq
      rw [← heq]
      exact le_max_left _ _
    · rw [if_neg h] at heq
      rw [← heq]
      exact hnn di hdi
  · intro di hdi hne hrel hle
    unfold update_parent_sizes_on_hide
    refine List.mem_map.mpr ⟨di, hdi, ?_⟩
    rw [if_pos ⟨hne, hrel⟩]
    have hmax : max 0 (di.size - hs) = 0 := by omega
    rw [hmax]

/-- Witness for C10: hiding 1000 bytes under an ancestor displaying 500
clamps the ancestor's displayed size to 0. -/
theorem C10_hide_clamps_nonneg_witness :
    (∀ di ∈ ([⟨["data"], 500, 0, false⟩] : List UIFileInfo), 0 ≤ di.size)
      ∧ ((∀ di' ∈ update_parent_sizes_on_hide
            ([⟨["data"], 500, 0, false⟩] : List UIFileInfo)
            (["data", "sub"] : FPath) 1000, 0 ≤ di'.size)
        ∧ ∀ di ∈ ([⟨["data"], 500, 0, false⟩] : List UIFileInfo),
            (["data", "sub"] : FPath) ≠ di.path →
            is_relative_to ["data", "sub"] di.path → di.size ≤ 1000 →
            { di with size := 0 } ∈ update_parent_sizes_on_hide
              ([⟨["data"], 500, 0, false⟩] : List UIFileInfo) ["data", "sub"] 1000) :=
  ⟨by decide,
   C10_hide_clamps_nonneg [⟨["data"], 500, 0, false⟩] ["data", "sub"] 1000
     (by decide)⟩

/-- C6: hiding a selected directory (a) rewrites the tracked directory
list in memory only — every strict ancestor of the hidden path has the
hidden directory's last-known size subtracted (clamped at zero) from its
displayed size and every non-ancestor entry is byte-for-byte unchanged;
(b) the hidden directory and, via the ancestor check, all of its
descendants are excluded from every rendered view; and (c) a full rescan
(`action_refresh`) clears the hidden state and replaces the lists with
the freshly recomputed scan results, restoring the original sizes. -/
theorem C6_hide_consistency (st : AppState) (ps : String) (m : UIFileInfo)
    (rest : List UIFileInfo)
    (hm : st.largest_dirs.filter (fun it => decide (path_str it.path = ps))
        = m :: rest) :
    (action_hide_selected st ps).largest_dirs
        = st.largest_dirs.map (fun di =>
            if m.path ≠ di.path ∧ is_relative_to m.path di.path then
              { di with size := max 0 (di.size - m.size) }
            else di)
      ∧ (∀ q : FPath, (q = m.path ∨ m.path <+: q) →
          is_hidden (action_hide_selected st ps).hidden_dirs q = true)
      ∧ (∀ items : List UIFileInfo,
          ∀ it ∈ visible_items (action_hide_selected st ps).hidden_dirs items,
            ¬ (it.path = m.path ∨ m.path <+: it.path))
      ∧ (∀ ff fd : List UIFileInfo,
          (action_refresh (action_hide_selected st ps) ff fd).hidden_dirs = []
            ∧ (action_refresh (action_hide_selected st ps) ff fd).largest_dirs = fd
            ∧ ∀ q : FPath,
                is_hidden (action_refresh (action_hide_selected st ps) ff fd).hidden_dirs q
                  = false) := by
  have hdef : action_hide_selected st ps
      = { st with
          hidden_dirs :=
            if m.path ∈ st.hidden_dirs then st.hidden_dirs
            else m.path :: st.hidden_dirs
          largest_dirs := update_parent_sizes_on_hide st.largest_dirs m.path m.size } := by
    unfold action_hide_selected
    rw [hm]
  have hmem : m.path ∈ (action_hide_selected st ps).hidden_dirs := by
    rw [hdef]
    by_cases h : m.path ∈ st.hidden_dirs
    · simpa [h] using h
    · simp [h]
  have hhid : ∀ q : FPath, (q = m.path ∨ m.path <+: q) →
      is_hidden (action_hide_selected st ps).hidden_dirs q = true := by
    intro q hq
    unfold is_hidden
    by_cases hqe : q = m.path
    · subst hqe
      simp [hmem]
    · have hpref : m.path <+: q := by
        rcases hq with h | h
        · exact absurd h hqe
        · exact h
      have hqp : m.path ∈ parents q :=
        mem_parents.mpr ⟨hpref, fun h => hqe h.symm⟩
      refine Eq.trans (congrArg _ ?_) (Bool.or_true _)
      simp only [List.any_eq_true, decide_eq_true_eq]
      exact ⟨m.path, hqp, hmem⟩
  refine ⟨?_, hhid, ?_, ?_⟩
  · rw [hdef]
    rfl
  · intro items it hit hbad
    unfold visible_items at hit
    have h1 := List.of_mem_filter hit
    have h2 := hhid it.path hbad
    rw [h2] at h1
    simp at h1
  · intro ff fd
    refine ⟨rfl, rfl, ?_⟩
    intro q
    unfold action_refresh is_hidden
    simp

/-- Witness for C6, scenario D: hide `/data/sub` (size 1000) while its
parent `/data` reports 5000; the parent's displayed size becomes 4000,
the hidden subtree is filtered from views, and a refresh clears it. -/
theorem C6_hide_consistency_witness :
    (([⟨["data"], 5000, 0, false⟩, ⟨["data", "sub"], 1000, 0, false⟩] :
        List UIFileInfo).filter
        (fun it => decide (path_str it.path = path_str ["data", "sub"]))
      = (⟨["data", "sub"], 1000, 0, false⟩ : UIFileInfo) :: [])
    ∧ ((action_hide_selected
          ⟨["data"], [],
            [⟨["data"], 5000, 0, false⟩, ⟨["data", "sub"], 1000, 0, false⟩], []⟩
          (path_str ["data", "sub"])).largest_dirs
        = ([⟨["data"], 5000, 0, false⟩, ⟨["data", "sub"], 1000, 0, false⟩] :
            List UIFileInfo).map (fun di =>
            if (["data", "sub"] : FPath) ≠ di.path
                ∧ is_relative_to ["data", "sub"] di.path then
              { di with size := max 0 (di.size - 1000) }
            else di)
      ∧ (∀ q : FPath, (q = ["data", "sub"] ∨ (["data", "sub"] : FPath) <+: q) →
          is_hidden (action_hide_selected
              ⟨["data"], [],
                [⟨["data"], 5000, 0, false⟩, ⟨["data", "sub"], 1000, 0, false⟩], []⟩
              (path_str ["data", "sub"])).hidden_dirs q = true)
      ∧ (∀ items : List UIFileInfo,
          ∀ it ∈ visible_items (action_hide_selected
              ⟨["data"], [],
                [⟨["data"], 5000, 0, false⟩, ⟨["data", "sub"], 1000, 0, false⟩], []⟩
              (path_str ["data", "sub"])).hidden_dirs items,
            ¬ (it.path = ["data", "sub"] ∨ (["data", "sub"] : FPath) <+: it.path))
      ∧ (∀ ff fd : List UIFileInfo,
          (action_refresh (action_hide_selected
              ⟨["data"], [],
                [⟨["data"], 5000, 0, false⟩, ⟨["data", "sub"], 1000, 0, false⟩], []⟩
              (path_str ["data", "sub"])) ff fd).hidden_dirs = []
            ∧ (action_refresh (action_hide_selected
                ⟨["data"], [],
                  [⟨["data"], 5000, 0, false⟩, ⟨["data", "sub"], 1000, 0, false⟩], []⟩
                (path_str ["data", "sub"])) ff fd).largest_dirs = fd
            ∧ ∀ q : FPath,
                is_hidden (action_refresh (action_hide_selected
                    ⟨["data"], [],
                      [⟨["data"], 5000, 0, false⟩,
                       ⟨["data", "sub"], 1000, 0, false⟩], []⟩
                    (path_str ["data", "sub"])) ff fd).hidden_dirs q = false))
    ∧ (action_hide_selected
          ⟨["data"], [],
            [⟨["data"], 5000, 0, false⟩, ⟨["data", "sub"], 1000, 0, false⟩], []⟩
          (path_str ["data", "sub"])).largest_dirs
        = [⟨["data"], 4000, 0, false⟩, ⟨["data", "sub"], 1000, 0, false⟩] :=
  ⟨by decide,
   C6_hide_consistency
     ⟨["data"], [],
       [⟨["data"], 5000, 0, false⟩, ⟨["data", "sub"], 1000, 0, false⟩], []⟩
     (path_str ["data", "sub"]) ⟨["data", "sub"], 1000, 0, false⟩ [] (by decide),
   by decide⟩

theorem mem_stableSortDesc_aux (l : List FileInfo) :
    ∀ (acc : List FileInfo) (a : FileInfo),
      a ∈ l.foldl (fun acc x => insertAfterGe x acc) acc ↔ a ∈ acc ∨ a ∈ l := by
  induction l with
  | nil => simp
  | cons y ys ih =>
      intro acc a
      simp only [List.foldl_cons]
      rw [ih]
      rw [mem_insertAfterGe]
      simp only [List.mem_cons]
      tauto

theorem mem_stableSortDesc {a : FileInfo} {l : List FileInfo} :
    a ∈ stableSortDesc l ↔ a ∈ l := by
  unfold stableSortDesc
  rw [mem_stableSortDesc_aux]
  simp

/-- C8: every directory the rendered "largest directories" table can show
— the accumulator view of `_get_largest_dirs` filtered by
`_add_row_to_table` — is the scan root, a descendant of the scan root, or
an ancestor at most 2 `parts` above it; ancestors more than 2 levels
above the root never appear. The view is sorted descending by size. -/
theorem C8_largest_dirs_view (fsIsDir : FPath → Bool) (dirSizes : DirSizes)
    (root : FPath) (maxDirs : Nat) (lm : Int) :
    (∀ it ∈ dirs_table_rows root
        ((get_largest_dirs fsIsDir dirSizes root maxDirs).map (toUI lm)),
        it.path = root
          ∨ (root <+: it.path ∧ it.path ≠ root)
          ∨ (it.path <+: root ∧ it.path ≠ root ∧ root.length - it.path.length ≤ 2))
      ∧ SizeSortedDescUI (dirs_table_rows root
          ((get_largest_dirs fsIsDir dirSizes root maxDirs).map (toUI lm))) := by
  constructor
  · intro it hit
    unfold dirs_table_rows at hit
    have hkept := List.of_mem_filter hit
    have hmem := List.mem_of_mem_filter hit
    obtain ⟨f, hf, rfl⟩ := List.mem_map.mp hmem
    unfold get_largest_dirs at hf
    have hf2 := List.mem_of_mem_take hf
    rw [mem_stableSortDesc] at hf2
    obtain ⟨pe, hpe, rfl⟩ := List.mem_map.mp hf2
    have hfilt := List.of_mem_filter hpe
    simp only [Bool.and_eq_true, decide_eq_true_eq] at hfilt
    rcases hfilt.2 with heq | hdesc | hanc
    · exact Or.inl heq
    · rw [mem_parents] at hdesc
      exact Or.inr (Or.inl ⟨hdesc.1, fun h => hdesc.2 h.symm⟩)
    · rw [mem_parents] at hanc
      refine Or.inr (Or.inr ⟨hanc.1, hanc.2, ?_⟩)
      have hrel : is_relative_to root (toUI lm ⟨pe.1, pe.2.1, pe.2.2⟩).path
          ∧ (toUI lm ⟨pe.1, pe.2.1, pe.2.2⟩).path ≠ root := ⟨hanc.1, hanc.2⟩
      rw [dir_row_kept, if_pos hrel] at hkept
      by_cases hpct : within_one_percent (toUI lm ⟨pe.1, pe.2.1, pe.2.2⟩).size
          (scan_dir_size_of root
            ((get_largest_dirs fsIsDir dirSizes root maxDirs).map (toUI lm)))
      · rw [if_pos hpct] at hkept
        exact absurd hkept (by simp)
      · rw [if_neg hpct] at hkept
        rw [dir_row_kept_shape] at hkept
        by_cases hc1 : (toUI lm ⟨pe.1, pe.2.1, pe.2.2⟩).path = ([] : FPath)
            ∨ (parts_count (toUI lm ⟨pe.1, pe.2.1, pe.2.2⟩).path ≤ 2
                ∧ (toUI lm ⟨pe.1, pe.2.1, pe.2.2⟩).path ≠ root)
        · rw [if_pos hc1] at hkept
          exact absurd hkept (by simp)
        · rw [if_neg hc1] at hkept
          by_cases hc2 : is_relative_to root (toUI lm ⟨pe.1, pe.2.1, pe.2.2⟩).path
              ∧ (toUI lm ⟨pe.1, pe.2.1, pe.2.2⟩).path ≠ root
              ∧ parts_count root - parts_count (toUI lm ⟨pe.1, pe.2.1, pe.2.2⟩).path > 2
          · rw [if_pos hc2] at hkept
            exact absurd hkept (by simp)
          · have hd2 : parts_count root
                - parts_count (toUI lm ⟨pe.1, pe.2.1, pe.2.2⟩).path ≤ 2 := by
              by_contra hgt
              exact hc2 ⟨hrel.1, hrel.2, by omega⟩
            unfold parts_count at hd2
            simp only [toUI] at hd2 ⊢
            omega
  · have hs1 : SizeSortedDesc (get_largest_dirs fsIsDir dirSizes root maxDirs) := by
      unfold get_largest_dirs
      exact (stableSortDesc_sorted _).sublist (List.take_sublist _ _)
    have hs2 : SizeSortedDescUI
        ((get_largest_dirs fsIsDir dirSizes root maxDirs).map (toUI lm)) := by
      unfold SizeSortedDescUI
      rw [List.pairwise_map]
      exact hs1
    unfold dirs_table_rows SizeSortedDescUI
    exact hs2.sublist (List.filter_sublist _)

theorem format_size_isSome (s : Int) (h : 0 ≤ s) :
    ∃ str, format_size s = some str := by
  unfold format_size
  rw [if_neg (by omega)]
  by_cases h0 : s = 0
  · rw [if_pos h0]
    exact ⟨_, rfl⟩
  · rw [if_neg h0]
    cases hfind : UNITS.reverse.find? (fun u => s ≥ u.1) with
    | none => simp only [hfind]; exact ⟨_, rfl⟩
    | some u => simp only [hfind]; exact ⟨_, rfl⟩

/-- The `exportEntry` over a list of nonnegative-size records succeeds and
produces, positionally, records carrying the stringified path, the raw
size, its human rendering, and a storage label that is always `"local"`
or `"icloud"`. -/
theorem mapM_exportEntry_spec (files : List FileInfo)
    (h : ∀ f ∈ files, 0 ≤ f.size) :
    ∃ es, files.mapM exportEntry = some es
      ∧ List.Forall₂ (fun (f : FileInfo) (e : ExportEntry) =>
          e.path = path_str f.path ∧ e.size_bytes = f.size
            ∧ format_size f.size = some e.size_human
            ∧ e.storage_type = (if f.is_icloud then icloudLabel else localLabel))
          files es
      ∧ ∀ e ∈ es, e.storage_type = localLabel ∨ e.storage_type = icloudLabel := by
  induction files with
  | nil => exact ⟨[], rfl, List.Forall₂.nil, by simp⟩
  | cons f fs ih =>
      obtain ⟨str, hstr⟩ := format_size_isSome f.size (h f (by simp))
      obtain ⟨es, hes, hfa, hst⟩ := ih (fun g hg => h g (by simp [hg]))
      refine ⟨{ path := path_str f.path, size_bytes := f.size, size_human := str
                storage_type := if f.is_icloud then icloudLabel else localLabel } :: es,
        ?_, ?_, ?_⟩
      · show (f :: fs).mapM exportEntry = some _
        rw [List.mapM_cons]
        rw [show exportEntry f = some
            { path := path_str f.path, size_bytes := f.size, size_human := str
              storage_type := if f.is_icloud then icloudLabel else localLabel } by
          unfold exportEntry
          rw [hstr]
          rfl]
        rw [hes]
        rfl
      · exact List.Forall₂.cons ⟨rfl, rfl, by rw [hstr], rfl⟩ hfa
      · intro e he
        rcases List.mem_cons.mp he with rfl | he
        · by_cases hic : f.is_icloud <;> simp [hic]
        · exact hst e he

/-- C7 (as frozen) is false on the code: exporting an iCloud-classified
file writes `storage_type = "icloud"`, which is neither `"local"` nor
`"remote"`. -/
theorem C7_counterexample :
    (save_results ("t") (["r"] : FPath) 10 1 []
        [(⟨["r", "f"], 10, true⟩ : FileInfo)] []).map
        (fun d => d.largest_files.map ExportEntry.storage_type)
      = some [icloudLabel]
      ∧ icloudLabel ≠ ("remote" : String)
      ∧ icloudLabel ≠ localLabel := by
  refine ⟨by rfl, by decide, by decide⟩

/-- C7, amended: for every list of nonnegative-size file and directory
records, the export succeeds and contains, for each record, a
`storage_type` field whose value is `"local"` or `"icloud"` (never
`"remote"`), along with `path`, `size_bytes` and `size_human`; a
`scan_info` block with `timestamp`, `scanned_path`, `total_size_bytes`,
`total_size_human` and `files_scanned`; and an `access_issues` list of
`{path, error}` pairs. -/
theorem C7_export_fields (timestamp : String) (scannedPath : FPath)
    (totalSize : Int) (fileCount : Nat) (accessIssues : List (FPath × String))
    (files dirs : List FileInfo)
    (hf : ∀ f ∈ files, 0 ≤ f.size) (hd : ∀ d ∈ dirs, 0 ≤ d.size)
    (ht : 0 ≤ totalSize) :
    ∃ doc, save_results timestamp scannedPath totalSize fileCount accessIssues
          files dirs = some doc
      ∧ doc.scan_info.timestamp = timestamp
      ∧ doc.scan_info.scanned_path = path_str scannedPath
      ∧ doc.scan_info.total_size_bytes = totalSize
      ∧ format_size totalSize = some doc.scan_info.total_size_human
      ∧ doc.scan_info.files_scanned = fileCount
      ∧ doc.access_issues
          = accessIssues.map (fun pe => ⟨path_str pe.1, pe.2⟩)
      ∧ List.Forall₂ (fun (f : FileInfo) (e : ExportEntry) =>
          e.path = path_str f.path ∧ e.size_bytes = f.size
            ∧ format_size f.size = some e.size_human
            ∧ e.storage_type = (if f.is_icloud then icloudLabel else localLabel))
          files doc.largest_files
      ∧ List.Forall₂ (fun (f : FileInfo) (e : ExportEntry) =>
          e.path = path_str f.path ∧ e.size_bytes = f.size
            ∧ format_size f.size = some e.size_human
            ∧ e.storage_type = (if f.is_icloud then icloudLabel else localLabel))
          dirs doc.largest_directories
      ∧ (∀ e ∈ doc.largest_files,
          e.storage_type = localLabel ∨ e.storage_type = icloudLabel)
      ∧ (∀ e ∈ doc.largest_directories,
          e.storage_type = localLabel ∨ e.storage_type = icloudLabel) := by
  obtain ⟨th, hth⟩ := format_size_isSome totalSize ht
  obtain ⟨lf, hlf, hfa, hfst⟩ := mapM_exportEntry_spec files hf
  obtain ⟨ld, hld, hda, hdst⟩ := mapM_exportEntry_spec dirs hd
  refine ⟨{ scan_info :=
              { timestamp := timestamp
                scanned_path := path_str scannedPath
                total_size_bytes := totalSize
                total_size_human := th
                files_scanned := fileCount }
            largest_files := lf
            largest_directories := ld
            access_issues := accessIssues.map (fun pe => ⟨path_str pe.1, pe.2⟩) },
    ?_, rfl, rfl, rfl, by rw [hth], rfl, rfl, hfa, hda, hfst, hdst⟩
  unfold save_results
  rw [hth, hlf, hld]
  rfl

/-- Witness for the amended C7 at a concrete export. -/
theorem C7_export_fields_witness :
    (∀ f ∈ ([(⟨["r", "f"], 10, true⟩ : FileInfo)] : List FileInfo), 0 ≤ f.size)
      ∧ (∀ d ∈ ([] : List FileInfo), 0 ≤ d.size)
      ∧ (0 : Int) ≤ 10
      ∧ ∃ doc, save_results ("t") (["r"] : FPath) 10 1 []
            [(⟨["r", "f"], 10, true⟩ : FileInfo)] [] = some doc
          ∧ doc.scan_info.timestamp = ("t" : String)
          ∧ doc.scan_info.scanned_path = path_str ["r"]
          ∧ doc.scan_info.total_size_bytes = 10
          ∧ format_size 10 = some doc.scan_info.total_size_human
          ∧ doc.scan_info.files_scanned = 1
          ∧ doc.access_issues = ([] : List (FPath × String)).map
              (fun pe => ⟨path_str pe.1, pe.2⟩)
          ∧ List.Forall₂ (fun (f : FileInfo) (e : ExportEntry) =>
              e.path = path_str f.path ∧ e.size_bytes = f.size
                ∧ format_size f.size = some e.size_human
                ∧ e.storage_type = (if f.is_icloud then icloudLabel else localLabel))
              [(⟨["r", "f"], 10, true⟩ : FileInfo)] doc.largest_files
          ∧ List.Forall₂ (fun (f : FileInfo) (e : ExportEntry) =>
              e.path = path_str f.path ∧ e.size_bytes = f.size
                ∧ format_size f.size = some e.size_human
                ∧ e.storage_type = (if f.is_icloud then icloudLabel else localLabel))
              ([] : List FileInfo) doc.largest_directories
          ∧ (∀ e ∈ doc.largest_files,
              e.storage_type = localLabel ∨ e.storage_type = icloudLabel)
          ∧ (∀ e ∈ doc.largest_directories,
              e.storage_type = localLabel ∨ e.storage_type = icloudLabel) :=
  ⟨by decide, by decide, by decide,
   C7_export_fields ("t") ["r"] 10 1 [] [(⟨["r", "f"], 10, true⟩ : FileInfo)] []
     (by decide) (by decide) (by decide)⟩

end Reclaimed
